import Mathlib

set_option maxHeartbeats 1000000

/-!
Verification development for a rule-based logical query optimizer
(`rules.py` over the tree model of `logical_tree.py`).

The optimizer works on a tagged tree of relational-algebra nodes
(`Scan`, `Select`, `Project`, `Join`, `Cross`, `Group`, `Having`, `Order`)
and rewrites it through seven passes.  Here the node kind is a string and
the loosely-typed property bag of the source becomes a structure with one
field per property key, each defaulting to the value Python's
`props.get(key, default)` would supply.
-/

/-- Property bag of a node.  Fields mirror the keys used by the source
(`pred`, `pred_attrs`, `alias`, `relation`, `attrs`, `on`,
`join_keys_left`, `join_keys_right`, `group_by`, `aggs`, `order_by`);
defaults match the `get` defaults of the source. -/
structure Props where
  pred : String := ""
  pred_attrs : List String := []
  palias : String := ""
  relation : String := ""
  attrs : List String := []
  onPred : Option String := none
  join_keys_left : List String := []
  join_keys_right : List String := []
  group_by : List String := []
  aggs : List (String × String) := []
  order_by : List String := []
  deriving DecidableEq, Repr

/-- A logical-algebra tree node: a kind tag, ordered children, properties. -/
inductive Node where
  | mk (op : String) (children : List Node) (props : Props)
  deriving Repr

def Node.op : Node → String
  | .mk o _ _ => o

def Node.children : Node → List Node
  | .mk _ cs _ => cs

def Node.props : Node → Props
  | .mk _ _ p => p

mutual
def nodeBEq : Node → Node → Bool
  | .mk o1 cs1 p1, .mk o2 cs2 p2 =>
    o1 = o2 && nodeBEqL cs1 cs2 && p1 = p2

def nodeBEqL : List Node → List Node → Bool
  | [], [] => true
  | a :: as1, b :: bs => nodeBEq a b && nodeBEqL as1 bs
  | _, _ => false
end

mutual
theorem nodeBEq_iff : ∀ a b : Node, nodeBEq a b = true ↔ a = b
  | .mk o1 cs1 p1, .mk o2 cs2 p2 => by
    simp only [nodeBEq, Bool.and_eq_true, decide_eq_true_eq, Node.mk.injEq]
    rw [nodeBEqL_iff cs1 cs2]
    tauto

theorem nodeBEqL_iff : ∀ l1 l2 : List Node, nodeBEqL l1 l2 = true ↔ l1 = l2
  | [], [] => by simp [nodeBEqL]
  | [], _ :: _ => by simp [nodeBEqL]
  | _ :: _, [] => by simp [nodeBEqL]
  | a :: as1, b :: bs => by
    simp only [nodeBEqL, Bool.and_eq_true, List.cons.injEq]
    rw [nodeBEq_iff a b, nodeBEqL_iff as1 bs]
end

instance : DecidableEq Node := fun a b => decidable_of_iff _ (nodeBEq_iff a b)

mutual
/-- Number of nodes in a tree (used as recursion fuel for the passes). -/
def nsize : Node → Nat
  | .mk _ cs _ => 1 + nsizeL cs

def nsizeL : List Node → Nat
  | [] => 0
  | c :: cs => nsize c + nsizeL cs
end

example : nsize (.mk "Scan" [] {}) = 1 := rfl
example : nsize (.mk "Select" [.mk "Scan" [] {}] {}) = 2 := rfl

/-! ## String-level analyses mirrored from the source

The passes recognise predicate shapes by light textual pattern matching
(`" AND " in pred`, `re.split(r"\s+AND\s+", ...)`,
`re.match(r"\s*([\w]+)\.([\w]+)\s*=\s*([\w]+)\.([\w]+)\s*$", ...)`,
`re.search(r"\b(SUM|COUNT|AVG|MIN|MAX)\s*\(", ..., re.IGNORECASE)`).
These are modelled character-by-character below. -/

/-- Python `"." in a`. -/
def hasDot (a : String) : Bool := a.toList.any (· = '.')

/-- Python `a.split(".")[0]`: the prefix of `a` before its first dot
(all of `a` when there is none). -/
def aliasOf (a : String) : String := String.mk (a.toList.takeWhile (· ≠ '.'))

/-- Python's regex `\s` over the ASCII inputs the optimizer sees. -/
def pyIsSpace (c : Char) : Bool :=
  c = ' ' || c = '\t' || c = '\n' || c = '\r' || c = '\x0b' || c = '\x0c'

/-- Python's regex `\w` over ASCII inputs: letters, digits, underscore. -/
def isWordChar (c : Char) : Bool := c.isAlphanum || c = '_'

/-- `leadsWith pat l` is true when `pat` is an initial segment of `l`. -/
def leadsWith : List Char → List Char → Bool
  | [], _ => true
  | _ :: _, [] => false
  | a :: as1, b :: bs => a = b && leadsWith as1 bs

/-- Python `" AND " in pred` (plain substring containment). -/
def hasANDsp (s : String) : Bool := go s.toList where
  go : List Char → Bool
    | [] => false
    | c :: rest => leadsWith [' ', 'A', 'N', 'D', ' '] (c :: rest) || go rest

/-- Greedily consume leading regex-`\s` characters, returning how many
were consumed and the remainder. -/
def takeWS : List Char → Nat × List Char
  | [] => (0, [])
  | c :: rest =>
    if pyIsSpace c then
      let p := takeWS rest
      (p.1 + 1, p.2)
    else (0, c :: rest)

/-- One leftmost match of the separator regex `\s+AND\s+` at the head of
the list: returns the remainder after the (greedy) match. -/
def sepMatch (l : List Char) : Option (List Char) :=
  let p1 := takeWS l
  if p1.1 = 0 then none
  else
    match p1.2 with
    | 'A' :: 'N' :: 'D' :: r2 =>
      let p2 := takeWS r2
      if p2.1 = 0 then none else some p2.2
    | _ => none

theorem takeWS_len : ∀ l : List Char, (takeWS l).1 + (takeWS l).2.length = l.length := by
  intro l
  induction l with
  | nil => simp [takeWS]
  | cons c rest ih =>
    simp only [takeWS]
    split
    · simp only [List.length_cons]; omega
    · simp

theorem sepMatch_len {l r : List Char} (h : sepMatch l = some r) :
    r.length < l.length := by
  have h1 := takeWS_len l
  simp only [sepMatch] at h
  split at h
  · exact absurd h (by simp)
  · rename_i hne
    split at h
    · rename_i r2 heq
      have h2 := takeWS_len r2
      split at h
      · exact absurd h (by simp)
      · rename_i hne2
        have h3 : (takeWS l).2.length = r2.length + 3 := by rw [heq]; simp
        simp only [Option.some.injEq] at h
        subst h
        omega
    · exact absurd h (by simp)

/-- `re.split(r"\s+AND\s+", s)` worker: `fuel` bounds the scan length. -/
def splitGo : Nat → List Char → List Char → List String
  | _ + 1, acc, [] => [String.mk acc.reverse]
  | 0, acc, l => [String.mk (acc.reverse ++ l)]
  | fuel + 1, acc, c :: rest =>
    match sepMatch (c :: rest) with
    | some r3 => String.mk acc.reverse :: splitGo fuel [] r3
    | none => splitGo fuel (c :: acc) rest

/-- Python `re.split(r"\s+AND\s+", s)`. -/
def splitAND (s : String) : List String := splitGo s.toList.length [] s.toList

theorem splitGo_ne_nil : ∀ fuel acc l, splitGo fuel acc l ≠ [] := by
  intro fuel
  induction fuel with
  | zero => intro acc l; cases l <;> simp [splitGo]
  | succ n ih =>
    intro acc l
    cases l with
    | nil => simp [splitGo]
    | cons c rest =>
      simp only [splitGo]
      split
      · simp
      · exact ih _ _

theorem splitAND_ne_nil (s : String) : splitAND s ≠ [] := splitGo_ne_nil _ _ _

/-- Python `re.match(r"\s*([\w]+)\.([\w]+)\s*=\s*([\w]+)\.([\w]+)\s*$", s)`:
the four captured groups, or `none` when the shape does not match. -/
def parseEqPred (s : String) : Option (String × String × String × String) :=
  let l0 := s.toList.dropWhile pyIsSpace
  let w1 := l0.takeWhile isWordChar
  let l1 := l0.dropWhile isWordChar
  if w1 = [] then none
  else
    match l1 with
    | '.' :: l2 =>
      let w2 := l2.takeWhile isWordChar
      let l3 := l2.dropWhile isWordChar
      if w2 = [] then none
      else
        match l3.dropWhile pyIsSpace with
        | '=' :: l5 =>
          let l6 := l5.dropWhile pyIsSpace
          let w3 := l6.takeWhile isWordChar
          let l7 := l6.dropWhile isWordChar
          if w3 = [] then none
          else
            match l7 with
            | '.' :: l8 =>
              let w4 := l8.takeWhile isWordChar
              let l9 := l8.dropWhile isWordChar
              if w4 = [] then none
              else if l9.dropWhile pyIsSpace = [] then
                some (String.mk w1, String.mk w2, String.mk w3, String.mk w4)
              else none
            | _ => none
        | _ => none
    | _ => none

example : parseEqPred "a.id = b.aid" = some ("a", "id", "b", "aid") := rfl
example : parseEqPred " a.id=b.aid " = some ("a", "id", "b", "aid") := rfl
example : parseEqPred "a.id = b.aid + 1" = none := rfl
example : parseEqPred "a.x > 5" = none := rfl

/-- The five aggregate names recognised by `having_to_where`. -/
def aggNames : List (List Char) :=
  [['S','U','M'], ['C','O','U','N','T'], ['A','V','G'], ['M','I','N'], ['M','A','X']]

/-- Does one of the aggregate names, followed by `\s*` and `(`, start here
(case-insensitively)? -/
def aggMatchAt (l : List Char) : Bool :=
  aggNames.any fun nm =>
    leadsWith nm (l.map Char.toUpper) &&
      match (l.drop nm.length).dropWhile pyIsSpace with
      | '(' :: _ => true
      | _ => false

/-- Scanner for `re.search(r"\b(SUM|COUNT|AVG|MIN|MAX)\s*\(", s, re.IGNORECASE)`:
`prevW` records whether the previous character was a word character (for
the `\b` boundary; the names all start with a word character). -/
def hasAggGo : Bool → List Char → Bool
  | _, [] => false
  | prevW, c :: rest => (!prevW && aggMatchAt (c :: rest)) || hasAggGo (isWordChar c) rest

/-- Python `re.search(r"\b(SUM|COUNT|AVG|MIN|MAX)\s*\(", pred, re.IGNORECASE)`
as a Boolean. -/
def hasAggCall (s : String) : Bool := hasAggGo false s.toList

example : hasAggCall "COUNT(*) > 1" = true := rfl
example : hasAggCall "count (x) > 1" = true := rfl
example : hasAggCall "a.x > 5" = false := rfl
example : hasAggCall "discount(a.x) > 5" = false := rfl
example : hasAggCall "SUMX(a.x) > 5" = false := rfl
example : hasAggCall "1+sum(a.x) > 5" = true := rfl

/-- Lexicographic (code-point) string comparison, matching how Python's
`sorted` compares strings. -/
def strLe (a b : String) : Bool := go a.toList b.toList where
  go : List Char → List Char → Bool
    | [], _ => true
    | _ :: _, [] => false
    | x :: xs, y :: ys => if x = y then go xs ys else decide (x < y)

/-- Stable insertion (ascending, by `strLe`) used to model Python's
`sorted(...)` on the synthetic-`Project` attribute lists. -/
def insStr (x : String) : List String → List String
  | [] => [x]
  | y :: ys => if strLe x y then x :: y :: ys else y :: insStr x ys

/-- Python `sorted(xs)` for strings. -/
def sortStrs : List String → List String
  | [] => []
  | x :: xs => insStr x (sortStrs xs)

example : sortStrs ["t.b", "t.a"] = ["t.a", "t.b"] := rfl

/-- Boolean subset test on alias/attribute lists (Python set `<=`). -/
def subsetB (xs ys : List String) : Bool := xs.all fun x => ys.contains x

/-- The alias set `involved` computed by `selection_pushdown`:
`{a.split(".")[0] for a in pred_attrs if "." in a}` (as a list, possibly
with duplicates — only membership is ever used). -/
def involvedOf (pred_attrs : List String) : List String :=
  (pred_attrs.filter hasDot).map aliasOf

example : involvedOf ["a.x", "y", "b.z"] = ["a", "b"] := rfl

/-! ## Tree analyses -/

mutual
/-- `aliases(subtree)` from `selection_pushdown` / `projection_pushdown`:
a `Scan` contributes its own alias, any other node the union of its
children (as a list; only membership is ever used). -/
def aliases : Node → List String
  | .mk op cs pr => if op = "Scan" then [pr.palias] else aliasesL cs

def aliasesL : List Node → List String
  | [] => []
  | c :: cs => aliases c ++ aliasesL cs
end

mutual
/-- Structural well-formedness used as the pipeline precondition: every
node kind is one of the eight with its fixed arity, and every `Having`
sits directly atop a `Group` (as the canonical grammar requires). -/
def wfA : Node → Bool
  | .mk op cs _ =>
    if op = "Scan" then cs.isEmpty
    else if op = "Select" || op = "Project" || op = "Group" || op = "Order" then
      match cs with
      | [c] => wfA c
      | _ => false
    else if op = "Having" then
      match cs with
      | [c] => c.op = "Group" && wfA c
      | _ => false
    else if op = "Join" || op = "Cross" then
      match cs with
      | [l, r] => wfA l && wfA r
      | _ => false
    else false
end

mutual
/-- Number of `Project` nodes in a tree. -/
def projCount : Node → Nat
  | .mk op cs _ => (if op = "Project" then 1 else 0) + projCountL cs

def projCountL : List Node → Nat
  | [] => 0
  | c :: cs => projCount c + projCountL cs
end

/-- The root-position invariant of the canonical grammar: the root is the
(unique) `Project`, or an `Order` whose child is the `Project`. -/
def topProject : Node → Bool
  | .mk op cs _ =>
    if op = "Project" then true
    else if op = "Order" then
      match cs with
      | [c] => c.op = "Project"
      | _ => false
    else false

mutual
/-- All `Select` predicates in the tree, pre-order (node before children,
children left to right). -/
def selPreds : Node → List String
  | .mk op cs pr => (if op = "Select" then [pr.pred] else []) ++ selPredsL cs

def selPredsL : List Node → List String
  | [] => []
  | c :: cs => selPreds c ++ selPredsL cs
end

mutual
/-- Modelled from the spec (§8 "attribute-set soundness"): whether a
canonical subtree can deliver attribute `a` to its parent.  A bare `Scan`
delivers any attribute of its alias (and any unqualified name, since the
schema is unknown); a non-wildcard `Project` delivers exactly its listed
attributes (that its child delivers); `Select`/`Having`/`Order` are
transparent; `Join`/`Cross` deliver from either side; a `Group` delivers
its group-by attributes (that its child delivers) and its aggregate
output aliases. -/
def producesAttr : Node → String → Bool
  | .mk op cs pr, a =>
    if op = "Scan" then (if hasDot a then aliasOf a = pr.palias else true)
    else if op = "Select" || op = "Having" || op = "Order" then
      match cs with
      | [c] => producesAttr c a
      | _ => false
    else if op = "Project" then
      match cs with
      | [c] =>
        if pr.attrs.contains "*" || pr.attrs.isEmpty then producesAttr c a
        else pr.attrs.contains a && producesAttr c a
      | _ => false
    else if op = "Join" || op = "Cross" then
      match cs with
      | [l, r] => producesAttr l a || producesAttr r a
      | _ => false
    else if op = "Group" then
      match cs with
      | [c] => (pr.group_by.contains a && producesAttr c a) || (pr.aggs.map Prod.fst).contains a
      | _ => false
    else false
end

/-! ## Canonical grammar (§3 of the spec)

A front-end tree: a chain of `Cross` nodes over `Scan` leaves, a chain of
`Select`s atop it, optionally a `Group`, optionally a `Having` atop the
`Group`, exactly one `Project`, optionally one `Order` at the root. -/

mutual
def crossChain : Node → Bool
  | .mk op cs _ =>
    if op = "Scan" then cs.isEmpty
    else if op = "Cross" then
      match cs with
      | [l, r] => crossChain l && crossChain r
      | _ => false
    else false
end

def selChain : Node → Bool
  | .mk op cs pr =>
    if op = "Select" then
      match cs with
      | [c] => selChain c
      | _ => false
    else crossChain (.mk op cs pr)

def groupHavingPart : Node → Bool
  | .mk op cs pr =>
    if op = "Having" then
      match cs with
      | [.mk "Group" [c] _] => selChain c
      | _ => false
    else if op = "Group" then
      match cs with
      | [c] => selChain c
      | _ => false
    else selChain (.mk op cs pr)

def projPart : Node → Bool
  | .mk op cs _ =>
    if op = "Project" then
      match cs with
      | [c] => groupHavingPart c
      | _ => false
    else false

/-- The canonical grammar of §3. -/
def canonical : Node → Bool
  | .mk op cs pr =>
    if op = "Order" then
      match cs with
      | [c] => projPart c
      | _ => false
    else projPart (.mk op cs pr)

/-! ## `Except`-valued traversal combinators

Python's list mutations `node.children = [helper(c) for c in node.children]`
become `exMap`; the seen-set threading of `dedup_selections` becomes
`stMap`.  A raised `IndexError`/missing-child access becomes `.error`. -/

def exMap (g : Node → Except String Node) : List Node → Except String (List Node)
  | [] => .ok []
  | c :: cs =>
    match g c with
    | .error e => .error e
    | .ok c' =>
      match exMap g cs with
      | .error e => .error e
      | .ok cs' => .ok (c' :: cs')

def stMap (g : Node → List String → Except String (Node × List String)) :
    List Node → List String → Except String (List Node × List String)
  | [], seen => .ok ([], seen)
  | c :: cs, seen =>
    match g c seen with
    | .error e => .error e
    | .ok p =>
      match stMap g cs p.2 with
      | .error e => .error e
      | .ok q => .ok (p.1 :: q.1, q.2)

theorem exMap_congr {g h : Node → Except String Node} :
    ∀ {l : List Node}, (∀ c ∈ l, g c = h c) → exMap g l = exMap h l := by
  intro l
  induction l with
  | nil => intro _; rfl
  | cons c cs ih =>
    intro hp
    simp only [exMap]
    rw [hp c (by simp), ih fun d hd => hp d (by simp [hd])]

theorem stMap_congr {g h : Node → List String → Except String (Node × List String)} :
    ∀ {l : List Node} {seen : List String},
      (∀ c ∈ l, ∀ s, g c s = h c s) → stMap g l seen = stMap h l seen := by
  intro l
  induction l with
  | nil => intro _ _; rfl
  | cons c cs ih =>
    intro seen hp
    simp only [stMap]
    rw [hp c (by simp)]
    rcases h c seen with e | p
    · rfl
    · simp only
      rw [ih fun d hd => hp d (by simp [hd])]

/-! ## Size bookkeeping -/

theorem nsize_pos (n : Node) : 1 ≤ nsize n := by
  cases n with
  | mk op cs pr => simp [nsize]

theorem nsizeL_append : ∀ l1 l2 : List Node, nsizeL (l1 ++ l2) = nsizeL l1 + nsizeL l2
  | [], l2 => by simp [nsizeL]
  | c :: cs, l2 => by
    have h := nsizeL_append cs l2
    simp only [List.cons_append, nsizeL]
    simp only [List.append_eq] at h ⊢
    omega

theorem nsize_mem_le {c : Node} : ∀ {cs : List Node}, c ∈ cs → nsize c ≤ nsizeL cs := by
  intro cs
  induction cs with
  | nil => intro h; cases h
  | cons d ds ih =>
    intro h
    rcases List.mem_cons.mp h with h1 | h1
    · subst h1; simp only [nsizeL]; omega
    · have := ih h1; simp only [nsizeL]; omega

/-! ## Pass 1 — `breakup_conjuncts` -/

/-- The `Select` chain built by `breakup_conjuncts`:
`for p in parts[::-1]: cur = Node("Select", [cur], {"pred": p, "pred_attrs": attrs})`.
The outermost node carries the first conjunct; every node carries the
full original `pred_attrs`. -/
def mkSelChain (ps : List String) (attrs : List String) (c : Node) : Node :=
  ps.foldr (fun p cur => .mk "Select" [cur] { pred := p, pred_attrs := attrs }) c

def bucHelper : Nat → Node → Except String Node
  | 0, _ => .error "fuel"
  | fuel + 1, node =>
    if node.op = "Select" && hasANDsp node.props.pred then
      match node.children with
      | [] => .error "index"
      | c :: _ => .ok (mkSelChain (splitAND node.props.pred) node.props.pred_attrs c)
    else
      match exMap (fun c => bucHelper fuel c) node.children with
      | .error e => .error e
      | .ok cs' => .ok (.mk node.op cs' node.props)

def breakup_conjuncts (n : Node) : Except String Node := bucHelper (nsize n) n

/-! ## Pass 2 — `selection_pushdown` -/

def spHelper : Nat → Node → Except String Node
  | 0, _ => .error "fuel"
  | fuel + 1, node =>
    if node.op = "Select" then
      match node.children with
      | [] => .error "index"
      | c :: rest =>
        match spHelper fuel c with
        | .error e => .error e
        | .ok child =>
          let involved := involvedOf node.props.pred_attrs
          if involved.isEmpty then .ok (.mk node.op (child :: rest) node.props)
          else if child.op = "Cross" || child.op = "Join" then
            match child.children with
            | [left, right] =>
              if subsetB involved (aliases left) then
                match spHelper fuel (.mk node.op (left :: rest) node.props) with
                | .error e => .error e
                | .ok pushed => .ok (.mk child.op [pushed, right] child.props)
              else if subsetB involved (aliases right) then
                match spHelper fuel (.mk node.op (right :: rest) node.props) with
                | .error e => .error e
                | .ok pushed => .ok (.mk child.op [left, pushed] child.props)
              else .ok (.mk node.op (child :: rest) node.props)
            | _ => .error "unpack"
          else .ok (.mk node.op (child :: rest) node.props)
    else
      match exMap (fun c => spHelper fuel c) node.children with
      | .error e => .error e
      | .ok cs' => .ok (.mk node.op cs' node.props)

def selection_pushdown (n : Node) : Except String Node := spHelper (nsize n) n

/-! ## Pass 3 — `joinize` -/

def jzHelper : Nat → Node → Except String Node
  | 0, _ => .error "fuel"
  | fuel + 1, node =>
    match exMap (fun c => jzHelper fuel c) node.children with
    | .error e => .error e
    | .ok cs' =>
      if node.op = "Select" then
        match cs' with
        | [] => .error "index"
        | c0 :: rest =>
          if c0.op = "Cross" then
            match parseEqPred node.props.pred with
            | some (g1, g2, g3, g4) =>
              match c0.children with
              | [left, right] =>
                .ok (.mk "Join" [left, right]
                  { onPred := some node.props.pred,
                    join_keys_left := [g1 ++ "." ++ g2],
                    join_keys_right := [g3 ++ "." ++ g4] })
              | _ => .error "unpack"
            | none => .ok (.mk node.op (c0 :: rest) node.props)
          else .ok (.mk node.op (c0 :: rest) node.props)
      else .ok (.mk node.op cs' node.props)

def joinize (n : Node) : Except String Node := jzHelper (nsize n) n

/-! ## Pass 4 — `projection_pushdown` -/

/-- Attributes mentioned inside the aggregate-expression texts of a
`Group` node: strip backquotes (char 96), turn `(`, `)`, `,` into spaces,
split on whitespace, keep dotted tokens. -/
def aggAttrsOf (aggs : List (String × String)) : List String :=
  (aggs.map fun kv =>
    (wsSplitGo ((kv.2.toList.filter (· ≠ Char.ofNat 96)).map
        fun c => if c = '(' || c = ')' || c = ',' then ' ' else c) []).filter hasDot).flatten
where
  wsSplitGo : List Char → List Char → List String
    | [], acc => if acc.isEmpty then [] else [String.mk acc.reverse]
    | c :: rest, acc =>
      if pyIsSpace c then
        if acc.isEmpty then wsSplitGo rest [] else String.mk acc.reverse :: wsSplitGo rest []
      else wsSplitGo rest (c :: acc)

example : aggAttrsOf [("s", "SUM(b.y)")] = ["b.y"] := rfl
example : aggAttrsOf [("c", "COUNT(*)")] = [] := rfl

def pjHelper : Nat → Node → List String → Except String Node
  | 0, _, _ => .error "fuel"
  | fuel + 1, node, needed =>
    if node.op = "Scan" then
      if needed.contains "*" || needed.isEmpty then .ok node
      else
        let attrs := needed.filter fun a => aliasOf a = node.props.palias
        if attrs.isEmpty then .ok node
        else .ok (.mk "Project" [node] { attrs := sortStrs attrs.dedup })
    else if node.op = "Select" || node.op = "Having" then
      match node.children with
      | [] => .error "index"
      | c :: rest =>
        match pjHelper fuel c (needed ++ node.props.pred_attrs) with
        | .error e => .error e
        | .ok c' => .ok (.mk node.op (c' :: rest) node.props)
    else if node.op = "Join" || node.op = "Cross" then
      match node.children with
      | [left, right] =>
        let keys := node.props.join_keys_left ++ node.props.join_keys_right
        let la := aliases left
        let ra := aliases right
        let ln := needed.filter (fun a => la.contains (aliasOf a)) ++
          keys.filter fun k => la.contains (aliasOf k)
        let rn := needed.filter (fun a => ra.contains (aliasOf a)) ++
          keys.filter fun k => ra.contains (aliasOf k)
        match pjHelper fuel left ln with
        | .error e => .error e
        | .ok l' =>
          match pjHelper fuel right rn with
          | .error e => .error e
          | .ok r' => .ok (.mk node.op [l', r'] node.props)
      | _ => .error "unpack"
    else if node.op = "Group" then
      match node.children with
      | [] => .error "index"
      | c :: rest =>
        match pjHelper fuel c (node.props.group_by ++ aggAttrsOf node.props.aggs) with
        | .error e => .error e
        | .ok c' => .ok (.mk node.op (c' :: rest) node.props)
    else if node.op = "Project" then
      match node.children with
      | [] => .error "index"
      | c :: rest =>
        let attrs := if node.props.attrs.contains "*" || node.props.attrs.isEmpty
          then needed else node.props.attrs
        match pjHelper fuel c attrs with
        | .error e => .error e
        | .ok c' => .ok (.mk node.op (c' :: rest) node.props)
    else if node.op = "Order" then
      match node.children with
      | [] => .error "index"
      | c :: rest =>
        match pjHelper fuel c (needed ++ node.props.order_by) with
        | .error e => .error e
        | .ok c' => .ok (.mk node.op (c' :: rest) node.props)
    else
      match exMap (fun c => pjHelper fuel c needed) node.children with
      | .error e => .error e
      | .ok cs' => .ok (.mk node.op cs' node.props)

/-- `projection_pushdown`: the entry computes the root needs from a root
`Project`'s attribute list or a root `Order`'s sort list. -/
def projection_pushdown (n : Node) : Except String Node :=
  pjHelper (nsize n) n
    (if n.op = "Project" then n.props.attrs
     else if n.op = "Order" then n.props.order_by
     else [])

/-! ## Pass 5 — `reorder_joins` -/

def cfHelper : Nat → Node → Except String (List Node)
  | 0, _ => .error "fuel"
  | fuel + 1, node =>
    if node.op = "Join" || node.op = "Cross" then
      match node.children with
      | c0 :: c1 :: _ =>
        match cfHelper fuel c0 with
        | .error e => .error e
        | .ok l =>
          match cfHelper fuel c1 with
          | .error e => .error e
          | .ok r => .ok (l ++ r)
      | _ => .error "index"
    else .ok [node]

/-- `collect_factors`: the ordered list of maximal non-`Join`/`Cross`
subtrees of a join chain. -/
def collectFactorsX (n : Node) : Except String (List Node) := cfHelper (nsize n) n

def exSumN (g : Node → Except String Nat) : List Node → Except String Nat
  | [] => .ok 0
  | c :: cs =>
    match g c with
    | .error e => .error e
    | .ok k =>
      match exSumN g cs with
      | .error e => .error e
      | .ok s => .ok (k + s)

def csHelper : Nat → Node → Except String Nat
  | 0, _ => .error "fuel"
  | fuel + 1, node =>
    if node.op = "Select" then
      match node.children with
      | [] => .error "index"
      | c :: _ =>
        match csHelper fuel c with
        | .error e => .error e
        | .ok k => .ok (1 + k)
    else exSumN (fun c => csHelper fuel c) node.children

/-- `count_selections`: the selection score of a factor. -/
def countSelX (n : Node) : Except String Nat := csHelper (nsize n) n

/-- Pair every factor with its selection score (Python's `sort(key=...)`
computes the key once per element). -/
def exScore : List Node → Except String (List (Node × Nat))
  | [] => .ok []
  | c :: cs =>
    match countSelX c with
    | .error e => .error e
    | .ok k =>
      match exScore cs with
      | .error e => .error e
      | .ok rest => .ok ((c, k) :: rest)

/-- Stable insertion for descending sort by score: an element is placed
before the first element whose score is not greater, so equal scores
keep their original relative order (Python's stable `sort` with
`reverse=True`). -/
def insFac (x : Node × Nat) : List (Node × Nat) → List (Node × Nat)
  | [] => [x]
  | y :: ys => if y.2 ≤ x.2 then x :: y :: ys else y :: insFac x ys

def sortFacs : List (Node × Nat) → List (Node × Nat)
  | [] => []
  | x :: xs => insFac x (sortFacs xs)

/-- `rebuild_chain`: left-deep chain of generic `Join` nodes. -/
def rebuildChain : List Node → Except String Node
  | [] => .error "index"
  | f :: rest =>
    .ok (rest.foldl
      (fun cur nxt => .mk "Join" [cur, nxt]
        { onPred := none, join_keys_left := [], join_keys_right := [] }) f)

def rjHelper : Nat → Node → Except String Node
  | 0, _ => .error "fuel"
  | fuel + 1, node =>
    if node.op = "Join" || node.op = "Cross" then
      match collectFactorsX node with
      | .error e => .error e
      | .ok fs =>
        match exMap (fun f => rjHelper fuel f) fs with
        | .error e => .error e
        | .ok fs' =>
          match exScore fs' with
          | .error e => .error e
          | .ok pairs => rebuildChain ((sortFacs pairs).map Prod.fst)
    else
      match exMap (fun c => rjHelper fuel c) node.children with
      | .error e => .error e
      | .ok cs' => .ok (.mk node.op cs' node.props)

def reorder_joins (n : Node) : Except String Node := rjHelper (nsize n) n

/-! ## Pass 6 — `having_to_where` -/

def htwHelper : Nat → Node → Except String Node
  | 0, _ => .error "fuel"
  | fuel + 1, node =>
    if node.op = "Having" then
      if hasAggCall node.props.pred then
        match node.children with
        | [] => .error "index"
        | c :: rest =>
          match htwHelper fuel c with
          | .error e => .error e
          | .ok c' => .ok (.mk node.op (c' :: rest) node.props)
      else
        match node.children with
        | [] => .error "index"
        | c :: _ =>
          match htwHelper fuel c with
          | .error e => .error e
          | .ok g =>
            match g.children with
            | [] => .error "index"
            | gc :: grest =>
              .ok (.mk g.op (Node.mk "Select" [gc] node.props :: grest) g.props)
    else
      match exMap (fun c => htwHelper fuel c) node.children with
      | .error e => .error e
      | .ok cs' => .ok (.mk node.op cs' node.props)

def having_to_where (n : Node) : Except String Node := htwHelper (nsize n) n

/-! ## Pass 7 — `dedup_selections` -/

def ddHelper : Nat → Node → List String → Except String (Node × List String)
  | 0, _, _ => .error "fuel"
  | fuel + 1, node, seen =>
    if node.op = "Select" then
      match node.children with
      | [] => .error "index"
      | c :: rest =>
        if seen.contains node.props.pred then ddHelper fuel c seen
        else
          match ddHelper fuel c (node.props.pred :: seen) with
          | .error e => .error e
          | .ok p => .ok (.mk node.op (p.1 :: rest) node.props, p.2)
    else
      match stMap (fun c s => ddHelper fuel c s) node.children seen with
      | .error e => .error e
      | .ok q => .ok (.mk node.op q.1 node.props, q.2)

def dedup_selections (n : Node) : Except String Node :=
  match ddHelper (nsize n) n [] with
  | .error e => .error e
  | .ok p => .ok p.1

/-! ## The driver -/

/-- `optimize_pipeline`: the seven passes in fixed order, together with
the ordered trace of nine `(name, tree)` pairs. -/
def optimize_pipeline (root : Node) :
    Except String (Node × List (String × Node)) :=
  match breakup_conjuncts root with
  | .error e => .error e
  | .ok r1 =>
    match selection_pushdown r1 with
    | .error e => .error e
    | .ok r2 =>
      match joinize r2 with
      | .error e => .error e
      | .ok r3 =>
        match projection_pushdown r3 with
        | .error e => .error e
        | .ok r4 =>
          match reorder_joins r4 with
          | .error e => .error e
          | .ok r5 =>
            match having_to_where r5 with
            | .error e => .error e
            | .ok r6 =>
              match dedup_selections r6 with
              | .error e => .error e
              | .ok r7 =>
                .ok (r7,
                  [("Step 0 — Canonical", root), ("Step 1 — BreakUpConjuncts", r1),
                   ("Step 2 — SelectionPushdown", r2), ("Step 3 — JoinizeSelections", r3),
                   ("Step 4 — ProjectionPushdown", r4), ("Step 5 — ReorderJoins", r5),
                   ("Step 6 — HavingToWhere", r6), ("Step 7 — DedupSelections", r7),
                   ("Step 8 — Final", r7)])

/-! ## Basic accessor lemmas -/

@[simp] theorem Node.op_mk (o : String) (cs : List Node) (p : Props) :
    (Node.mk o cs p).op = o := rfl

@[simp] theorem Node.children_mk (o : String) (cs : List Node) (p : Props) :
    (Node.mk o cs p).children = cs := rfl

@[simp] theorem Node.props_mk (o : String) (cs : List Node) (p : Props) :
    (Node.mk o cs p).props = p := rfl

theorem nsize_mk (o : String) (cs : List Node) (p : Props) :
    nsize (.mk o cs p) = nsizeL cs + 1 := by
  simp [nsize, Nat.add_comm]

theorem nsize_single (c : Node) (o : String) (p : Props) :
    nsize (.mk o [c] p) = nsize c + 1 := by
  simp [nsize_mk, nsizeL]

/-! ## Properties of `breakup_conjuncts` -/

/-- One-step characterization of `bucHelper` on a unary `Select`. -/
theorem bucHelper_select (fuel : Nat) (props : Props) (c : Node) :
    bucHelper (fuel + 1) (.mk "Select" [c] props) =
      (if hasANDsp props.pred then
        .ok (mkSelChain (splitAND props.pred) props.pred_attrs c)
      else
        match bucHelper fuel c with
        | .error e => .error e
        | .ok c' => .ok (.mk "Select" [c'] props)) := by
  by_cases h : hasANDsp props.pred
  · simp [bucHelper, h]
  · simp only [Bool.not_eq_true] at h
    simp [bucHelper, h, exMap]
    rcases bucHelper fuel c with e | c' <;> simp

theorem breakup_select_and {props : Props} (c : Node)
    (h : hasANDsp props.pred = true) :
    breakup_conjuncts (.mk "Select" [c] props) =
      .ok (mkSelChain (splitAND props.pred) props.pred_attrs c) := by
  rw [breakup_conjuncts, nsize_single, bucHelper_select, if_pos h]

theorem breakup_select_noand {props : Props} (c : Node)
    (h : hasANDsp props.pred = false) :
    breakup_conjuncts (.mk "Select" [c] props) =
      match breakup_conjuncts c with
      | .error e => .error e
      | .ok c' => .ok (.mk "Select" [c'] props) := by
  rw [breakup_conjuncts, nsize_single, bucHelper_select, if_neg (by simp [h])]
  rfl

/-- `pred_attrs` of the first `k` nodes of a `Select` chain, outermost
first. -/
def selChainAttrs : Nat → Node → List (List String)
  | 0, _ => []
  | k + 1, .mk op cs pr =>
    if op = "Select" then
      match cs with
      | c :: _ => pr.pred_attrs :: selChainAttrs k c
      | [] => []
    else []

theorem selChainAttrs_mkSelChain (attrs : List String) :
    ∀ (ps : List String) (c : Node),
      selChainAttrs ps.length (mkSelChain ps attrs c) =
        List.replicate ps.length attrs := by
  intro ps
  induction ps with
  | nil => intro c; simp [selChainAttrs, mkSelChain]
  | cons p ps ih =>
    intro c
    simp only [mkSelChain, List.foldr_cons, List.length_cons, selChainAttrs,
      List.replicate_succ, if_pos rfl]
    exact congrArg _ (ih c)

/-- Example scans used in concrete instances below. -/
def scanA : Node := .mk "Scan" [] { relation := "A", palias := "a" }
def scanB : Node := .mk "Scan" [] { relation := "B", palias := "b" }
def scanT : Node := .mk "Scan" [] { relation := "T", palias := "t" }

/-- C5 counterexample input: the `AND` occurs only inside parentheses,
yet the predicate text contains `" AND "` and is split. -/
def C5cexIn : Node :=
  .mk "Select" [scanA]
    { pred := "(a.x = 1 AND a.y = 2) OR b.z = 3", pred_attrs := ["a.x", "a.y", "b.z"] }

/-- C5: the claim, as stated, is false: a predicate whose `AND` occurs
only inside parentheses is split anyway (the trigger is the raw
substring `" AND "`). -/
theorem C5_counterexample :
    breakup_conjuncts C5cexIn =
      .ok (.mk "Select"
        [.mk "Select" [scanA]
          { pred := "a.y = 2) OR b.z = 3", pred_attrs := ["a.x", "a.y", "b.z"] }]
        { pred := "(a.x = 1", pred_attrs := ["a.x", "a.y", "b.z"] }) ∧
    (Node.mk "Select"
        [.mk "Select" [scanA]
          { pred := "a.y = 2) OR b.z = 3", pred_attrs := ["a.x", "a.y", "b.z"] }]
        { pred := "(a.x = 1", pred_attrs := ["a.x", "a.y", "b.z"] }) ≠ C5cexIn := by
  constructor
  · rfl
  · decide

/-- C5 (corrected): `breakup_conjuncts` splits a unary `Select` exactly
when its predicate text contains the substring `" AND "` (top-level or
not), replacing it by the chain `mkSelChain` of the `\s+AND\s+`-separated
parts over the *unprocessed* original child; a `Select` without that
substring is kept with its child processed. -/
theorem C5_breakup_characterization :
    ∀ (props : Props) (c : Node),
      (hasANDsp props.pred = true →
        breakup_conjuncts (.mk "Select" [c] props) =
          .ok (mkSelChain (splitAND props.pred) props.pred_attrs c)) ∧
      (hasANDsp props.pred = false →
        breakup_conjuncts (.mk "Select" [c] props) =
          match breakup_conjuncts c with
          | .error e => .error e
          | .ok c' => .ok (.mk "Select" [c'] props)) :=
  fun _ c => ⟨breakup_select_and c, breakup_select_noand c⟩

theorem C5_witness :
    hasANDsp "a.x = 1 AND b.y = 2" = true ∧
    breakup_conjuncts (.mk "Select" [scanA]
        { pred := "a.x = 1 AND b.y = 2", pred_attrs := ["a.x", "b.y"] }) =
      .ok (.mk "Select"
        [.mk "Select" [scanA] { pred := "b.y = 2", pred_attrs := ["a.x", "b.y"] }]
        { pred := "a.x = 1", pred_attrs := ["a.x", "b.y"] }) :=
  ⟨rfl, by
    rw [(C5_breakup_characterization
      { pred := "a.x = 1 AND b.y = 2", pred_attrs := ["a.x", "b.y"] } scanA).1 rfl]
    rfl⟩

/-- C10: every `Select` in the chain produced by splitting a conjunctive
`Select` carries the complete original `pred_attrs` list (not just the
attributes of its own conjunct). -/
theorem C10_split_carries_full_attrs :
    ∀ (props : Props) (c m : Node), hasANDsp props.pred = true →
      breakup_conjuncts (.mk "Select" [c] props) = .ok m →
      selChainAttrs (splitAND props.pred).length m =
        List.replicate (splitAND props.pred).length props.pred_attrs := by
  intro props c m h hm
  rw [breakup_select_and c h] at hm
  cases hm
  exact selChainAttrs_mkSelChain _ _ _

theorem C10_witness :
    selChainAttrs 2
      (.mk "Select"
        [.mk "Select" [scanB] { pred := "y = 2", pred_attrs := ["a.x", "y"] }]
        { pred := "a.x = 1", pred_attrs := ["a.x", "y"] }) =
      [["a.x", "y"], ["a.x", "y"]] :=
  C10_split_carries_full_attrs
    { pred := "a.x = 1 AND y = 2", pred_attrs := ["a.x", "y"] } scanB _ rfl rfl

/-! ## Properties of `joinize` -/

theorem jzHelper_irrel : ∀ fuel fuel' n, nsize n ≤ fuel → nsize n ≤ fuel' →
    jzHelper fuel n = jzHelper fuel' n := by
  intro fuel
  induction fuel using Nat.strong_induction_on with
  | _ fuel ih =>
    intro fuel' n hf hf'
    have hp := nsize_pos n
    rcases fuel with _ | f
    · omega
    rcases fuel' with _ | f'
    · omega
    cases n with
    | mk op cs pr =>
      have hsz : nsize (.mk op cs pr) = nsizeL cs + 1 := nsize_mk _ _ _
      have hmap : exMap (fun c => jzHelper f c) cs = exMap (fun c => jzHelper f' c) cs := by
        apply exMap_congr
        intro c hc
        have h1 : nsize c ≤ nsizeL cs := nsize_mem_le hc
        exact ih f (by omega) f' c (by omega) (by omega)
      simp only [jzHelper, Node.children_mk]
      rw [hmap]

/-- One-step behavior of `joinize` on `Select` atop `Cross`: the conversion
to `Join` depends only on whether the predicate text matches the anchored
equality pattern, never on where the two aliases live. -/
theorem C1_joinize_textual_eq_only (props cprops : Props) (l r l' r' : Node)
    (hl : joinize l = .ok l') (hr : joinize r = .ok r') :
    joinize (.mk "Select" [.mk "Cross" [l, r] cprops] props) =
      .ok (match parseEqPred props.pred with
        | some (g1, g2, g3, g4) =>
          .mk "Join" [l', r']
            { onPred := some props.pred,
              join_keys_left := [g1 ++ "." ++ g2],
              join_keys_right := [g3 ++ "." ++ g4] }
        | none => .mk "Select" [.mk "Cross" [l', r'] cprops] props) := by
  have hIl : jzHelper (nsize l + nsize r) l = .ok l' := by
    rw [jzHelper_irrel (nsize l + nsize r) (nsize l) l (by omega) le_rfl]
    exact hl
  have hIr : jzHelper (nsize l + nsize r) r = .ok r' := by
    rw [jzHelper_irrel (nsize l + nsize r) (nsize r) r
      (by have := nsize_pos l; omega) le_rfl]
    exact hr
  have hc : jzHelper (nsize (Node.mk "Cross" [l, r] cprops))
      (.mk "Cross" [l, r] cprops) = .ok (.mk "Cross" [l', r'] cprops) := by
    rw [show nsize (Node.mk "Cross" [l, r] cprops) = (nsize l + nsize r) + 1 by
      rw [nsize_mk]; simp [nsizeL]]
    simp only [jzHelper, Node.children_mk, exMap]
    rw [hIl, hIr]
    simp [Node.op_mk]
  rw [joinize, nsize_single, jzHelper]
  simp only [Node.children_mk, exMap]
  rw [hc]
  simp only [Node.op_mk, if_pos rfl, reduceIte, Node.props_mk]
  rcases hp : parseEqPred props.pred with _ | ⟨g1, g2, g3, g4⟩ <;> simp

/-- The conversion condition exactly as the claim states it (second,
claim-following definition, for comparison with the code's behavior):
the predicate parses as a bare qualified equality *and* one operand's
alias belongs to L's alias set while the other's belongs to R's, in
either operand order. -/
def joinizeClaimCond (pred : String) (L R : Node) : Bool :=
  match parseEqPred pred with
  | some (g1, _, g3, _) =>
    ((aliases L).contains g1 && (aliases R).contains g3) ||
    ((aliases L).contains g3 && (aliases R).contains g1)
  | none => false

/-- C1 counterexample input: both equality operands are qualified by the
*left* side's alias, so the claim's condition fails, yet the code
converts to a `Join` all the same. -/
def C1cexIn : Node :=
  .mk "Select" [.mk "Cross" [scanA, scanB] {}]
    { pred := "a.x = a.y", pred_attrs := ["a.x", "a.y"] }

theorem C1_counterexample :
    joinize C1cexIn =
      .ok (.mk "Join" [scanA, scanB]
        { onPred := some "a.x = a.y",
          join_keys_left := ["a.x"], join_keys_right := ["a.y"] }) ∧
    joinizeClaimCond "a.x = a.y" scanA scanB = false :=
  ⟨rfl, rfl⟩

theorem C1_witness :
    joinize (.mk "Select" [.mk "Cross" [scanA, scanB] {}]
        { pred := "a.id = b.aid", pred_attrs := ["a.id", "b.aid"] }) =
      .ok (.mk "Join" [scanA, scanB]
        { onPred := some "a.id = b.aid",
          join_keys_left := ["a.id"], join_keys_right := ["b.aid"] }) := by
  rw [C1_joinize_textual_eq_only _ _ scanA scanB scanA scanB rfl rfl]
  rfl

/-! ## Properties of `having_to_where` -/

/-- C6: on a canonical `Having` directly atop a `Group`, the `Having` is
dropped and its predicate (with its full property bag, hence the same
referenced attributes) is inserted as a `Select` directly below the
`Group` exactly when the predicate text contains no aggregate call
`\b(SUM|COUNT|AVG|MIN|MAX)\s*\(`; otherwise the `Having` stays in place
with only its subtree processed. -/
theorem C6_having_to_where (hp gp : Props) (c c' : Node)
    (hc : having_to_where c = .ok c') :
    having_to_where (.mk "Having" [.mk "Group" [c] gp] hp) =
      .ok (if hasAggCall hp.pred then .mk "Having" [.mk "Group" [c'] gp] hp
           else .mk "Group" [.mk "Select" [c'] hp] gp) := by
  rw [having_to_where] at hc
  rw [having_to_where,
    show nsize (Node.mk "Having" [.mk "Group" [c] gp] hp) = (nsize c + 1) + 1 by
      rw [nsize_single, nsize_single]]
  simp only [htwHelper, Node.op_mk, Node.children_mk, Node.props_mk, exMap]
  rw [hc]
  by_cases ha : hasAggCall hp.pred
  . simp [ha]
  . simp [ha]

theorem C6_witness :
    hasAggCall "COUNT(*) > 1" = true ∧
    having_to_where (.mk "Having" [.mk "Group" [scanA] { group_by := ["a.x"] }]
        { pred := "COUNT(*) > 1", pred_attrs := [] }) =
      .ok (.mk "Having" [.mk "Group" [scanA] { group_by := ["a.x"] }]
        { pred := "COUNT(*) > 1", pred_attrs := [] }) :=
  ⟨rfl, by
    rw [C6_having_to_where { pred := "COUNT(*) > 1", pred_attrs := [] }
      { group_by := ["a.x"] } scanA scanA rfl]
    rfl⟩

/-! ## Properties of `dedup_selections` -/

theorem stMap_size {g : Node → List String → Except String (Node × List String)}
    (H : ∀ c s m s', g c s = .ok (m, s') → nsize m ≤ nsize c) :
    ∀ (l : List Node) (seen : List String) (l' : List Node) (s' : List String),
      stMap g l seen = .ok (l', s') → nsizeL l' ≤ nsizeL l := by
  intro l
  induction l with
  | nil =>
    intro seen l' s' h
    simp only [stMap, Except.ok.injEq, Prod.mk.injEq] at h
    rw [← h.1]
  | cons c cs ihl =>
    intro seen l' s' h
    simp only [stMap] at h
    split at h
    . simp at h
    . rename_i p heq
      split at h
      . simp at h
      . rename_i q heq2
        simp only [Except.ok.injEq, Prod.mk.injEq] at h
        rw [← h.1]
        have h1 := H c seen p.1 p.2 (by rw [heq])
        have h2 := ihl p.2 q.1 q.2 (by rw [heq2])
        simp only [nsizeL]
        omega

theorem ddHelper_size :
    ∀ fuel n seen m s', ddHelper fuel n seen = .ok (m, s') → nsize m ≤ nsize n := by
  intro fuel
  induction fuel using Nat.strong_induction_on with
  | _ fuel ih =>
    intro n seen m s' h
    rcases fuel with _ | f
    . simp [ddHelper] at h
    cases n with
    | mk op cs pr =>
      simp only [ddHelper, Node.op_mk, Node.children_mk, Node.props_mk] at h
      split at h
      . split at h
        . simp at h
        . rename_i c rest
          split at h
          . have h1 := ih f (by omega) c seen m s' h
            rw [nsize_mk]
            simp only [nsizeL]
            omega
          . split at h
            . simp at h
            . rename_i p heq
              simp only [Except.ok.injEq, Prod.mk.injEq] at h
              rw [← h.1]
              have h1 := ih f (by omega) c _ p.1 p.2 (by rw [heq])
              rw [nsize_mk, nsize_mk]
              simp only [nsizeL]
              omega
      . split at h
        . simp at h
        . rename_i q heq
          simp only [Except.ok.injEq, Prod.mk.injEq] at h
          rw [← h.1]
          have h1 := stMap_size (fun c s m s' hh => ih f (by omega) c s m s' hh) cs seen q.1 q.2 (by rw [heq])
          rw [nsize_mk, nsize_mk]
          omega

/-! ## Well-formedness eliminators -/

theorem wfA_select_shape {cs : List Node} {pr : Props}
    (h : wfA (.mk "Select" cs pr) = true) : ∃ c, cs = [c] ∧ wfA c = true := by
  unfold wfA at h
  simp only [reduceIte, String.reduceEq, Bool.or_self, Bool.true_or, Bool.or_true] at h
  rcases cs with _ | ⟨c, _ | ⟨d, rest⟩⟩ <;> simp at h
  exact ⟨c, rfl, h⟩

theorem wfA_children {op : String} {cs : List Node} {pr : Props}
    (h : wfA (.mk op cs pr) = true) : ∀ c ∈ cs, wfA c = true := by
  intro c hc
  unfold wfA at h
  split at h
  . rcases cs with _ | _
    . cases hc
    . simp at h
  . split at h
    . split at h
      . rename_i c1
        simp only [List.mem_singleton] at hc
        rw [hc]; exact h
      . simp at h
    . split at h
      . split at h
        . rename_i c1
          simp only [List.mem_singleton] at hc
          simp only [Bool.and_eq_true] at h
          rw [hc]
          exact h.2
        . simp at h
      . split at h
        . split at h
          . rename_i l r
            simp only [Bool.and_eq_true] at h
            obtain ⟨h1, h2⟩ := h
            rcases List.mem_cons.mp hc with h3 | h3
            . rw [h3]; exact h1
            . simp only [List.mem_singleton] at h3
              rw [h3]; exact h2
          . simp at h
        . simp at h

/-! ## Step equations for `ddHelper` -/

theorem dd_step_sel_dup {f : Nat} {pr : Props} {seen : List String} {c : Node}
    {rest : List Node} (hmem : seen.contains pr.pred = true) :
    ddHelper (f + 1) (.mk "Select" (c :: rest) pr) seen = ddHelper f c seen := by
  simp [ddHelper, hmem]
  intro h2
  exact absurd (by simpa using hmem) h2

theorem dd_step_sel_new {f : Nat} {pr : Props} {seen : List String} {c : Node}
    {rest : List Node} (hmem : seen.contains pr.pred = false) :
    ddHelper (f + 1) (.mk "Select" (c :: rest) pr) seen =
      match ddHelper f c (pr.pred :: seen) with
      | .error e => .error e
      | .ok p => .ok (.mk "Select" (p.1 :: rest) pr, p.2) := by
  simp [ddHelper, hmem]
  intro h2
  exact absurd h2 (by simpa using hmem)

theorem dd_step_other {f : Nat} {op : String} {cs : List Node} {pr : Props}
    {seen : List String} (hop : op ≠ "Select") :
    ddHelper (f + 1) (.mk op cs pr) seen =
      match stMap (fun c s => ddHelper f c s) cs seen with
      | .error e => .error e
      | .ok q => .ok (.mk op q.1 pr, q.2) := by
  simp [ddHelper, hop]

/-! ## Second-run stability of `dedup_selections` -/

theorem stMap_second (B : Nat)
    {g1 g2 : Node → List String → Except String (Node × List String)} :
    ∀ (l : List Node),
      (∀ c ∈ l, ∀ s m s', g1 c s = .ok (m, s') → nsize m ≤ B → g2 m s = .ok (m, s')) →
      ∀ seen l' s', stMap g1 l seen = .ok (l', s') → nsizeL l' ≤ B →
        stMap g2 l' seen = .ok (l', s') := by
  intro l
  induction l with
  | nil =>
    intro _ seen l' s' h hb
    simp only [stMap, Except.ok.injEq, Prod.mk.injEq] at h
    rw [← h.1, ← h.2]
    rfl
  | cons c cs ihl =>
    intro H seen l' s' h hb
    simp only [stMap] at h
    split at h
    . simp at h
    . rename_i p heq
      split at h
      . simp at h
      . rename_i q heq2
        simp only [Except.ok.injEq, Prod.mk.injEq] at h
        rw [← h.1, ← h.2]
        rw [← h.1] at hb
        simp only [nsizeL] at hb
        have hpos := nsize_pos p.1
        have hc1 : g2 p.1 seen = .ok (p.1, p.2) :=
          H c (by simp) seen p.1 p.2 (by rw [heq]) (by omega)
        have hc2 : stMap g2 q.1 p.2 = .ok (q.1, q.2) :=
          ihl (fun d hd => H d (by simp [hd])) p.2 q.1 q.2 (by rw [heq2]) (by omega)
        simp only [stMap, hc1, hc2]

theorem ddHelper_second :
    ∀ fuel fuel2 n seen m s', nsize n ≤ fuel → ddHelper fuel n seen = .ok (m, s') →
      nsize m ≤ fuel2 → ddHelper fuel2 m seen = .ok (m, s') := by
  intro fuel
  induction fuel using Nat.strong_induction_on with
  | _ fuel ih =>
    intro fuel2 n seen m s' hf h hf2
    rcases fuel with _ | f
    . have := nsize_pos n; omega
    cases n with
    | mk op cs pr =>
      rw [nsize_mk] at hf
      simp only [ddHelper, Node.op_mk, Node.children_mk, Node.props_mk] at h
      split at h
      . rename_i hop
        split at h
        . simp at h
        . rename_i c rest
          simp only [nsizeL] at hf
          split at h
          . rename_i hmem
            exact ih f (by omega) fuel2 c seen m s' (by omega) h hf2
          . rename_i hmem
            split at h
            . simp at h
            . rename_i p heq
              simp only [Except.ok.injEq, Prod.mk.injEq] at h
              rcases fuel2 with _ | f2
              . rw [← h.1] at hf2; have := nsize_pos (Node.mk op (p.1 :: rest) pr); omega
              rw [← h.1] at hf2
              rw [nsize_mk] at hf2
              simp only [nsizeL] at hf2
              have hrec : ddHelper f2 p.1 (pr.pred :: seen) = .ok (p.1, p.2) :=
                ih f (by omega) f2 c (pr.pred :: seen) p.1 p.2 (by omega) (by rw [heq])
                  (by omega)
              rw [← h.1, ← h.2]
              subst hop
              rw [dd_step_sel_new (by rw [← Bool.not_eq_true]; exact hmem), hrec]
      . rename_i hop
        split at h
        . simp at h
        . rename_i q heq
          simp only [Except.ok.injEq, Prod.mk.injEq] at h
          rcases fuel2 with _ | f2
          . rw [← h.1] at hf2; have := nsize_pos (Node.mk op q.1 pr); omega
          rw [← h.1] at hf2
          rw [nsize_mk] at hf2
          have hrec : stMap (fun c s => ddHelper f2 c s) q.1 seen = .ok (q.1, q.2) := by
            apply stMap_second f2 cs _ seen q.1 q.2 (by rw [heq]) (by omega)
            intro c hc s mm ss hfirst hbound
            have hmle := nsize_mem_le hc
            exact ih f (by omega) f2 c s mm ss (by omega) hfirst hbound
          rw [← h.1, ← h.2]
          rw [dd_step_other hop, hrec]

/-! ## Predicate distinctness after `dedup_selections` -/

theorem selPreds_mk (op : String) (cs : List Node) (pr : Props) :
    selPreds (.mk op cs pr) =
      (if op = "Select" then [pr.pred] else []) ++ selPredsL cs := by
  unfold selPreds
  rfl

theorem selPredsL_cons (c : Node) (cs : List Node) :
    selPredsL (c :: cs) = selPreds c ++ selPredsL cs := by
  simp only [selPredsL]

theorem stMap_preds {g : Node → List String → Except String (Node × List String)} :
    ∀ (l : List Node),
      (∀ c ∈ l, ∀ s m s', g c s = .ok (m, s') →
        ((selPreds m).Nodup ∧ (∀ p ∈ selPreds m, p ∉ s) ∧
          ∀ p, p ∈ s' ↔ p ∈ selPreds m ∨ p ∈ s)) →
      ∀ seen l' s', stMap g l seen = .ok (l', s') →
        ((selPredsL l').Nodup ∧ (∀ p ∈ selPredsL l', p ∉ seen) ∧
          ∀ p, p ∈ s' ↔ p ∈ selPredsL l' ∨ p ∈ seen) := by
  intro l
  induction l with
  | nil =>
    intro _ seen l' s' h
    simp only [stMap, Except.ok.injEq, Prod.mk.injEq] at h
    rw [← h.1, ← h.2]
    refine ⟨by constructor, by simp [selPredsL], by simp [selPredsL]⟩
  | cons c cs ihl =>
    intro H seen l' s' h
    simp only [stMap] at h
    split at h
    . simp at h
    . rename_i p heq
      split at h
      . simp at h
      . rename_i q heq2
        simp only [Except.ok.injEq, Prod.mk.injEq] at h
        rw [← h.1, ← h.2]
        obtain ⟨nd1, dj1, iff1⟩ := H c (by simp) seen p.1 p.2 (by rw [heq])
        obtain ⟨nd2, dj2, iff2⟩ :=
          ihl (fun d hd => H d (by simp [hd])) p.2 q.1 q.2 (by rw [heq2])
        rw [selPredsL_cons]
        refine ⟨?_, ?_, ?_⟩
        . rw [List.nodup_append]
          refine ⟨nd1, nd2, ?_⟩
          intro x hx1 hx2
          exact dj2 x hx2 ((iff1 x).mpr (Or.inl hx1))
        . intro x hx
          rcases List.mem_append.mp hx with hx1 | hx2
          . exact dj1 x hx1
          . intro hxs
            exact dj2 x hx2 ((iff1 x).mpr (Or.inr hxs))
        . intro x
          rw [iff2 x, iff1 x, List.mem_append]
          tauto

theorem ddHelper_preds :
    ∀ fuel n seen m s', wfA n = true → ddHelper fuel n seen = .ok (m, s') →
      ((selPreds m).Nodup ∧ (∀ p ∈ selPreds m, p ∉ seen) ∧
        ∀ p, p ∈ s' ↔ p ∈ selPreds m ∨ p ∈ seen) := by
  intro fuel
  induction fuel using Nat.strong_induction_on with
  | _ fuel ih =>
    intro n seen m s' hw h
    rcases fuel with _ | f
    . simp [ddHelper] at h
    cases n with
    | mk op cs pr =>
      simp only [ddHelper, Node.op_mk, Node.children_mk, Node.props_mk] at h
      split at h
      . rename_i hop
        split at h
        . simp at h
        . rename_i c rest
          subst hop
          obtain ⟨c0, hceq, hwfc⟩ := wfA_select_shape hw
          simp only [List.cons.injEq] at hceq
          obtain ⟨hc0, hrest⟩ := hceq
          subst hc0
          subst hrest
          split at h
          . rename_i hmem
            exact ih f (by omega) c seen m s' hwfc h
          . rename_i hmem
            split at h
            . simp at h
            . rename_i p heq
              simp only [Except.ok.injEq, Prod.mk.injEq] at h
              obtain ⟨nd1, dj1, iff1⟩ :=
                ih f (by omega) c (pr.pred :: seen) p.1 p.2 hwfc (by rw [heq])
              rw [← h.1, ← h.2]
              rw [selPreds_mk]
              simp only [String.reduceEq, reduceIte, if_pos rfl, ite_true,
                selPredsL_cons, selPredsL, List.append_nil, List.singleton_append]
              have hpns : pr.pred ∉ seen := by simpa using hmem
              refine ⟨?_, ?_, ?_⟩
              . rw [List.nodup_cons]
                refine ⟨fun hx => dj1 pr.pred hx (by simp), nd1⟩
              . intro x hx
                rcases List.mem_cons.mp hx with hx1 | hx2
                . rw [hx1]; exact hpns
                . intro hxs
                  exact dj1 x hx2 (by simp [hxs])
              . intro x
                rw [iff1 x]
                simp only [List.mem_cons]
                tauto
      . rename_i hop
        split at h
        . simp at h
        . rename_i q heq
          simp only [Except.ok.injEq, Prod.mk.injEq] at h
          obtain ⟨nd2, dj2, iff2⟩ :=
            stMap_preds cs
              (fun d hd s mm ss hdd =>
                ih f (by omega) d s mm ss (wfA_children hw d hd) hdd)
              seen q.1 q.2 (by rw [heq])
          rw [← h.1, ← h.2]
          rw [selPreds_mk, if_neg hop, List.nil_append]
          exact ⟨nd2, dj2, iff2⟩

/-- Modelled from the spec and claim words (C7, second sentence): keep a
predicate text in the first-occurrence `dedupFirst` run exactly when it
has not been seen before, threading the seen set left to right. -/
def dedupFirst : List String → List String → List String
  | [], _ => []
  | p :: ps, seen =>
    if seen.contains p then dedupFirst ps seen
    else p :: dedupFirst ps (p :: seen)

mutual
/-- Modelled from the spec and claim words (C7, second sentence): walk
the tree in pre-order carrying the set of predicate texts already seen.
The first occurrence of each predicate text keeps its `Select` node at
its original position (the seen set is extended); every later `Select`
anywhere in the tree with an identical predicate text is removed, its
(recursively transformed) child spliced into its place.  Total: a
childless `Select` — impossible on arity-well-formed trees — is kept
unchanged. -/
def dedupSpec : Node → List String → Node × List String
  | .mk op cs pr, seen =>
    if op = "Select" then
      match cs with
      | c :: _ =>
        if seen.contains pr.pred then dedupSpec c seen
        else
          (.mk "Select" [(dedupSpec c (pr.pred :: seen)).1] pr,
            (dedupSpec c (pr.pred :: seen)).2)
      | [] => (.mk op [] pr, seen)
    else
      (.mk op (dedupSpecL cs seen).1 pr, (dedupSpecL cs seen).2)

def dedupSpecL : List Node → List String → List Node × List String
  | [], seen => ([], seen)
  | c :: cs, seen =>
    ((dedupSpec c seen).1 :: (dedupSpecL cs (dedupSpec c seen).2).1,
      (dedupSpecL cs (dedupSpec c seen).2).2)
end

theorem dedupSpec_sel (c : Node) (pr : Props) (seen : List String) :
    dedupSpec (.mk "Select" [c] pr) seen =
      if seen.contains pr.pred then dedupSpec c seen
      else (.mk "Select" [(dedupSpec c (pr.pred :: seen)).1] pr,
        (dedupSpec c (pr.pred :: seen)).2) := by
  conv_lhs => unfold dedupSpec
  simp

theorem dedupSpec_other {op : String} (hop : ¬ op = "Select")
    (cs : List Node) (pr : Props) (seen : List String) :
    dedupSpec (.mk op cs pr) seen =
      (.mk op (dedupSpecL cs seen).1 pr, (dedupSpecL cs seen).2) := by
  conv_lhs => unfold dedupSpec
  simp [hop]

theorem contains_congr (s1 s2 : List String) (p : String)
    (h : ∀ q, q ∈ s1 ↔ q ∈ s2) : s1.contains p = s2.contains p := by
  rcases hc : s2.contains p
  . rcases hc1 : s1.contains p
    . rfl
    . have m1 : p ∈ s1 := by simpa using hc1
      have m2 : p ∈ s2 := (h p).mp m1
      have h3 : s2.contains p = true := by simpa using m2
      rw [h3] at hc
      simp at hc
  . have m2 : p ∈ s2 := by simpa using hc
    have m1 : p ∈ s1 := (h p).mpr m2
    simpa using m1

theorem dedupFirst_congr :
    ∀ (l s1 s2 : List String), (∀ q, q ∈ s1 ↔ q ∈ s2) →
      dedupFirst l s1 = dedupFirst l s2 := by
  intro l
  induction l with
  | nil => intro s1 s2 _; rfl
  | cons p ps ih =>
    intro s1 s2 h
    simp only [dedupFirst, contains_congr s1 s2 p h]
    by_cases hc : s2.contains p = true
    . rw [if_pos hc, if_pos hc, ih s1 s2 h]
    . rw [if_neg hc, if_neg hc, ih (p :: s1) (p :: s2) (by intro q; simp [h q])]

theorem dedupFirst_append :
    ∀ (l1 l2 s : List String),
      dedupFirst (l1 ++ l2) s = dedupFirst l1 s ++ dedupFirst l2 (l1 ++ s) := by
  intro l1
  induction l1 with
  | nil =>
    intro l2 s
    simp only [List.nil_append, dedupFirst]
  | cons p ps ih =>
    intro l2 s
    simp only [List.cons_append, dedupFirst, List.append_eq]
    by_cases hc : s.contains p = true
    . rw [if_pos hc, if_pos hc, ih l2 s]
      have hp : p ∈ s := by simpa using hc
      have hmemEq : ∀ q, q ∈ ps ++ s ↔ q ∈ p :: (ps ++ s) := by
        intro q
        simp only [List.mem_append, List.mem_cons]
        constructor
        . tauto
        . intro h1
          rcases h1 with h1 | h1 | h1
          . rw [h1]; exact Or.inr hp
          . exact Or.inl h1
          . exact Or.inr h1
      rw [dedupFirst_congr l2 _ _ hmemEq]
    . rw [if_neg hc, if_neg hc, ih l2 (p :: s)]
      have hmemEq : ∀ q, q ∈ ps ++ p :: s ↔ q ∈ p :: (ps ++ s) := by
        intro q
        simp only [List.mem_append, List.mem_cons]
        tauto
      rw [dedupFirst_congr l2 _ _ hmemEq, List.cons_append]

theorem dedupSpecL_preds :
    ∀ l : List Node,
      (∀ c ∈ l, ∀ s, selPreds (dedupSpec c s).1 = dedupFirst (selPreds c) s ∧
        (∀ p, p ∈ (dedupSpec c s).2 ↔ p ∈ selPreds c ∨ p ∈ s)) →
      ∀ seen, selPredsL (dedupSpecL l seen).1 = dedupFirst (selPredsL l) seen ∧
        (∀ p, p ∈ (dedupSpecL l seen).2 ↔ p ∈ selPredsL l ∨ p ∈ seen) := by
  intro l
  induction l with
  | nil =>
    intro _ seen
    refine ⟨rfl, ?_⟩
    intro p
    simp [dedupSpecL, selPredsL]
  | cons c cs ih =>
    intro H seen
    obtain ⟨hc1, hc2⟩ := H c (by simp) seen
    obtain ⟨hcs1, hcs2⟩ := ih (fun d hd => H d (by simp [hd])) ((dedupSpec c seen).2)
    simp only [dedupSpecL, selPredsL_cons]
    constructor
    . rw [hc1, hcs1, dedupFirst_append]
      have hmemEq : ∀ q, q ∈ (dedupSpec c seen).2 ↔ q ∈ selPreds c ++ seen := by
        intro q
        rw [hc2 q, List.mem_append]
      rw [dedupFirst_congr (selPredsL cs) _ _ hmemEq]
    . intro p
      rw [hcs2 p, hc2 p, List.mem_append]
      tauto

theorem dedupSpec_preds :
    ∀ k n seen, nsize n ≤ k → wfA n = true →
      selPreds (dedupSpec n seen).1 = dedupFirst (selPreds n) seen ∧
      (∀ p, p ∈ (dedupSpec n seen).2 ↔ p ∈ selPreds n ∨ p ∈ seen) := by
  intro k
  induction k using Nat.strong_induction_on with
  | _ k ih =>
    intro n seen hk hw
    have hpos := nsize_pos n
    cases n with
    | mk op cs pr =>
      rw [nsize_mk] at hk
      by_cases hop : op = "Select"
      . subst hop
        obtain ⟨c, hcs, hwc⟩ := wfA_select_shape hw
        subst hcs
        simp only [nsizeL] at hk
        have hcp := nsize_pos c
        rw [dedupSpec_sel]
        have hsel : selPreds (Node.mk "Select" [c] pr) = pr.pred :: selPreds c := by
          rw [selPreds_mk]
          simp [selPredsL]
        rw [hsel]
        by_cases hc : seen.contains pr.pred = true
        . rw [if_pos hc]
          obtain ⟨h1, h2⟩ := ih (nsize c) (by omega) c seen le_rfl hwc
          have hmem : pr.pred ∈ seen := by simpa using hc
          refine ⟨?_, ?_⟩
          . rw [h1]
            simp only [dedupFirst, if_pos hc]
          . intro p
            rw [h2 p, List.mem_cons]
            constructor
            . tauto
            . intro h3
              rcases h3 with (h3 | h3) | h3
              . rw [h3]; exact Or.inr hmem
              . exact Or.inl h3
              . exact Or.inr h3
        . rw [if_neg hc]
          obtain ⟨h1, h2⟩ := ih (nsize c) (by omega) c (pr.pred :: seen) le_rfl hwc
          refine ⟨?_, ?_⟩
          . have hres : selPreds (Node.mk "Select"
                [(dedupSpec c (pr.pred :: seen)).1] pr) =
                pr.pred :: selPreds (dedupSpec c (pr.pred :: seen)).1 := by
              rw [selPreds_mk]
              simp [selPredsL]
            dsimp only
            rw [hres, h1]
            simp only [dedupFirst, if_neg hc]
          . intro p
            dsimp only
            rw [h2 p]
            simp only [List.mem_cons]
            tauto
      . have H : ∀ c ∈ cs, ∀ s,
            selPreds (dedupSpec c s).1 = dedupFirst (selPreds c) s ∧
            (∀ p, p ∈ (dedupSpec c s).2 ↔ p ∈ selPreds c ∨ p ∈ s) := by
          intro c hc s
          have hle := nsize_mem_le hc
          exact ih (nsize c) (by omega) c s le_rfl (wfA_children hw c hc)
        obtain ⟨h1, h2⟩ := dedupSpecL_preds cs H seen
        rw [dedupSpec_other hop]
        constructor
        . dsimp only
          rw [selPreds_mk, if_neg hop, List.nil_append,
            selPreds_mk, if_neg hop, List.nil_append]
          exact h1
        . intro p
          dsimp only
          rw [selPreds_mk, if_neg hop, List.nil_append]
          exact h2 p

theorem stMap_spec {g : Node → List String → Except String (Node × List String)} :
    ∀ l : List Node,
      (∀ c ∈ l, ∀ s m s', g c s = .ok (m, s') → (m, s') = dedupSpec c s) →
      ∀ seen l' s', stMap g l seen = .ok (l', s') → (l', s') = dedupSpecL l seen := by
  intro l
  induction l with
  | nil =>
    intro _ seen l' s' h
    simp only [stMap, Except.ok.injEq, Prod.mk.injEq] at h
    rw [← h.1, ← h.2]
    simp only [dedupSpecL]
  | cons c cs ihl =>
    intro H seen l' s' h
    simp only [stMap] at h
    split at h
    . simp at h
    . rename_i p heq
      split at h
      . simp at h
      . rename_i q heq2
        simp only [Except.ok.injEq, Prod.mk.injEq] at h
        have e1 : (p.1, p.2) = dedupSpec c seen := H c (by simp) seen p.1 p.2 (by rw [heq])
        have e2 : (q.1, q.2) = dedupSpecL cs p.2 :=
          ihl (fun d hd => H d (by simp [hd])) p.2 q.1 q.2 (by rw [heq2])
        rw [← h.1, ← h.2]
        simp only [dedupSpecL]
        rw [← e1]
        dsimp only
        rw [← e2]

theorem ddHelper_spec :
    ∀ fuel n seen m s', wfA n = true → ddHelper fuel n seen = .ok (m, s') →
      (m, s') = dedupSpec n seen := by
  intro fuel
  induction fuel using Nat.strong_induction_on with
  | _ fuel ih =>
    intro n seen m s' hw h
    rcases fuel with _ | f
    . simp [ddHelper] at h
    cases n with
    | mk op cs pr =>
      simp only [ddHelper, Node.op_mk, Node.children_mk, Node.props_mk] at h
      split at h
      . rename_i hop
        split at h
        . simp at h
        . rename_i c rest
          subst hop
          obtain ⟨c0, hceq, hwfc⟩ := wfA_select_shape hw
          simp only [List.cons.injEq] at hceq
          obtain ⟨hc0, hrest⟩ := hceq
          subst hc0
          subst hrest
          rw [dedupSpec_sel]
          split at h
          . rename_i hmem
            rw [if_pos hmem]
            exact ih f (by omega) c seen m s' hwfc h
          . rename_i hmem
            rw [if_neg hmem]
            split at h
            . simp at h
            . rename_i p heq
              simp only [Except.ok.injEq, Prod.mk.injEq] at h
              have e1 : (p.1, p.2) = dedupSpec c (pr.pred :: seen) :=
                ih f (by omega) c (pr.pred :: seen) p.1 p.2 hwfc (by rw [heq])
              rw [← h.1, ← h.2, ← e1]
      . rename_i hop
        split at h
        . simp at h
        . rename_i q heq
          simp only [Except.ok.injEq, Prod.mk.injEq] at h
          have e2 : (q.1, q.2) = dedupSpecL cs seen :=
            stMap_spec cs
              (fun d hd s mm ss hdd =>
                ih f (by omega) d s mm ss (wfA_children hw d hd) hdd)
              seen q.1 q.2 (by rw [heq])
          rw [← h.1, ← h.2, dedupSpec_other hop, ← e2]

/-- C7: `dedup_selections` is idempotent; and on arity-well-formed trees
one run realises exactly the keep-first-pre-order-occurrence,
splice-later-duplicates transform: the output equals the spec-modelled
`dedupSpec` (which keeps the first occurrence of each predicate text at
its original position and splices every later identical `Select` out,
replacing it by its transformed child), the pre-order sequence of
surviving `Select` predicate texts is exactly the first-occurrence
subsequence of the input's pre-order sequence, and is duplicate-free. -/
theorem C7_dedup_idempotent :
    ∀ n m, dedup_selections n = .ok m →
      dedup_selections m = .ok m ∧
        (wfA n = true →
          m = (dedupSpec n []).1 ∧
          selPreds m = dedupFirst (selPreds n) [] ∧
          (selPreds m).Nodup) := by
  intro n m h
  unfold dedup_selections at h
  split at h
  . simp at h
  . rename_i p heq
    simp only [Except.ok.injEq] at h
    subst h
    constructor
    . unfold dedup_selections
      have h2 := ddHelper_second (nsize n) (nsize p.1) n [] p.1 p.2 le_rfl
        (by rw [heq]) le_rfl
      rw [h2]
    . intro hw
      have hs := ddHelper_spec (nsize n) n [] p.1 p.2 hw (by rw [heq])
      refine ⟨congrArg Prod.fst hs, ?_,
        (ddHelper_preds (nsize n) n [] p.1 p.2 hw (by rw [heq])).1⟩
      rw [congrArg Prod.fst hs]
      exact (dedupSpec_preds (nsize n) n [] le_rfl hw).1

def C7witIn : Node :=
  .mk "Select"
    [.mk "Select"
      [.mk "Select" [.mk "Scan" [] { relation := "t", palias := "a" }]
        { pred := "a.x = 1", pred_attrs := ["a.x"] }]
      { pred := "a.y = 2", pred_attrs := ["a.y"] }]
    { pred := "a.x = 1", pred_attrs := ["a.x"] }

def C7witOut : Node :=
  .mk "Select"
    [.mk "Select" [.mk "Scan" [] { relation := "t", palias := "a" }]
      { pred := "a.y = 2", pred_attrs := ["a.y"] }]
    { pred := "a.x = 1", pred_attrs := ["a.x"] }

theorem C7_witness :
    wfA C7witIn = true ∧
    dedup_selections C7witIn = .ok C7witOut ∧
    dedup_selections C7witOut = .ok C7witOut ∧
    C7witOut = (dedupSpec C7witIn []).1 ∧
    selPreds C7witOut = dedupFirst (selPreds C7witIn) [] ∧
    (selPreds C7witOut).Nodup :=
  have h := C7_dedup_idempotent C7witIn C7witOut rfl
  ⟨rfl, rfl, h.1, (h.2 rfl).1, (h.2 rfl).2.1, (h.2 rfl).2.2⟩

/-! ## Properties of `reorder_joins` -/

theorem cf_bound :
    ∀ fuel n fs, cfHelper fuel n = .ok fs → ∀ f ∈ fs, nsize f ≤ nsize n := by
  intro fuel
  induction fuel using Nat.strong_induction_on with
  | _ fuel ih =>
    intro n fs h f hf
    rcases fuel with _ | fl
    . simp [cfHelper] at h
    cases n with
    | mk op cs pr =>
      simp only [cfHelper, Node.op_mk, Node.children_mk] at h
      split at h
      . split at h
        . rename_i c0 c1 crest hx0
          split at h
          . simp at h
          . rename_i l hl
            split at h
            . simp at h
            . rename_i r hr
              simp only [Except.ok.injEq] at h
              subst h
              rw [nsize_mk]
              rcases List.mem_append.mp hf with hm | hm
              . have h1 := ih fl (by omega) c0 l hl f hm
                simp only [nsizeL]
                have := nsize_pos c1
                omega
              . have h1 := ih fl (by omega) c1 r hr f hm
                simp only [nsizeL]
                have := nsize_pos c0
                omega
        . simp at h
      . simp only [Except.ok.injEq] at h
        subst h
        simp only [List.mem_singleton] at hf
        rw [hf]

theorem cf_bound_strict {fuel : Nat} {op : String} {cs : List Node} {pr : Props} {fs : List Node}
    (hor : op = "Join" ∨ op = "Cross")
    (h : cfHelper fuel (.mk op cs pr) = .ok fs) :
    ∀ f ∈ fs, nsize f < nsize (.mk op cs pr) := by
  intro f hf
  rcases fuel with _ | fl
  . simp [cfHelper] at h
  simp only [cfHelper, Node.op_mk, Node.children_mk] at h
  split at h
  . split at h
    . rename_i c0 c1 crest hx0
      split at h
      . simp at h
      . rename_i l hl
        split at h
        . simp at h
        . rename_i r hr
          simp only [Except.ok.injEq] at h
          subst h
          rw [nsize_mk]
          rcases List.mem_append.mp hf with hm | hm
          . have h1 := cf_bound fl c0 l hl f hm
            simp only [nsizeL]
            have := nsize_pos c1
            omega
          . have h1 := cf_bound fl c1 r hr f hm
            simp only [nsizeL]
            have := nsize_pos c0
            omega
    . simp at h
  . rename_i hcond
    exact absurd (by rcases hor with h1 | h1 <;> simp [h1]) hcond

theorem cf_ne_nil :
    ∀ fuel n fs, cfHelper fuel n = .ok fs → fs ≠ [] := by
  intro fuel
  induction fuel using Nat.strong_induction_on with
  | _ fuel ih =>
    intro n fs h
    rcases fuel with _ | fl
    . simp [cfHelper] at h
    cases n with
    | mk op cs pr =>
      simp only [cfHelper, Node.op_mk, Node.children_mk] at h
      split at h
      . split at h
        . rename_i c0 c1 crest hx0
          split at h
          . simp at h
          . rename_i l hl
            split at h
            . simp at h
            . rename_i r hr
              simp only [Except.ok.injEq] at h
              subst h
              have h1 := ih fl (by omega) c0 l hl
              intro hcon
              rcases List.append_eq_nil.mp hcon with ⟨h2, _⟩
              exact h1 h2
        . simp at h
      . simp only [Except.ok.injEq] at h
        subst h
        simp

theorem rjHelper_irrel : ∀ fuel fuel' n, nsize n ≤ fuel → nsize n ≤ fuel' →
    rjHelper fuel n = rjHelper fuel' n := by
  intro fuel
  induction fuel using Nat.strong_induction_on with
  | _ fuel ih =>
    intro fuel' n hf hf'
    have hp := nsize_pos n
    rcases fuel with _ | f
    . omega
    rcases fuel' with _ | f'
    . omega
    cases n with
    | mk op cs pr =>
      rw [nsize_mk] at hf hf' hp
      simp only [rjHelper, Node.op_mk, Node.children_mk]
      split
      . rename_i hcond
        have hor : op = "Join" ∨ op = "Cross" := by
          rcases Bool.or_eq_true _ _ |>.mp hcond with h1 | h1
          . exact Or.inl (by simpa using h1)
          . exact Or.inr (by simpa using h1)
        rcases hcf : collectFactorsX (.mk op cs pr) with e | fs
        . rfl
        . have hmap : exMap (fun c => rjHelper f c) fs = exMap (fun c => rjHelper f' c) fs := by
            apply exMap_congr
            intro fac hfac
            have hb := cf_bound_strict hor hcf fac hfac
            rw [nsize_mk] at hb
            exact ih f (by omega) f' fac (by omega) (by omega)
          simp only [hmap]
      . have hmap : exMap (fun c => rjHelper f c) cs = exMap (fun c => rjHelper f' c) cs := by
          apply exMap_congr
          intro c hc
          have h1 := nsize_mem_le hc
          exact ih f (by omega) f' c (by omega) (by omega)
        rw [hmap]

theorem exScore_const {k : Nat} :
    ∀ fs : List Node, (∀ f ∈ fs, countSelX f = .ok k) →
      exScore fs = .ok (fs.map fun f => (f, k)) := by
  intro fs
  induction fs with
  | nil => intro _; rfl
  | cons f fs ihl =>
    intro H
    simp only [exScore, H f (by simp), ihl fun d hd => H d (by simp [hd]), List.map_cons]

theorem sortFacs_const {k : Nat} :
    ∀ l : List (Node × Nat), (∀ y ∈ l, y.2 = k) → sortFacs l = l := by
  intro l
  induction l with
  | nil => intro _; rfl
  | cons x xs ihl =>
    intro H
    simp only [sortFacs, ihl fun d hd => H d (by simp [hd])]
    cases xs with
    | nil => rfl
    | cons y ys =>
      simp only [insFac]
      rw [if_pos]
      rw [H y (by simp), H x (by simp)]

theorem map_fst_map_pair (k : Nat) :
    ∀ l : List Node, (l.map fun f => (f, k)).map Prod.fst = l := by
  intro l
  induction l with
  | nil => rfl
  | cons a t ih2 => simp only [List.map_cons, ih2]

/-- C8: on a `Join`/`Cross` chain whose (recursively processed) factors
all score equally, `reorder_joins` rebuilds the left-deep chain with the
factors in their original left-to-right order. -/
theorem C8_reorder_ties_keep_order :
    ∀ (n : Node) (fs fs' : List Node) (k : Nat),
      (n.op = "Join" ∨ n.op = "Cross") →
      collectFactorsX n = .ok fs →
      exMap (fun f => reorder_joins f) fs = .ok fs' →
      (∀ f ∈ fs', countSelX f = .ok k) →
      reorder_joins n = rebuildChain fs' := by
  intro n fs fs' k hor hcf hex hk
  cases n with
  | mk op cs pr =>
    obtain ⟨F, hF⟩ : ∃ F, nsize (Node.mk op cs pr) = F + 1 :=
      ⟨nsizeL cs, by rw [nsize_mk]⟩
    rw [reorder_joins, hF]
    simp only [rjHelper, Node.op_mk, Node.children_mk]
    rw [if_pos (by rcases hor with h1 | h1 <;> simp_all)]
    rw [hcf]
    have hmap : exMap (fun c => rjHelper F c) fs = .ok fs' := by
      rw [← hex]
      apply exMap_congr
      intro fac hfac
      have hb := cf_bound_strict (by simpa using hor) hcf fac hfac
      rw [reorder_joins]
      exact rjHelper_irrel F (nsize fac) fac (by omega) le_rfl
    have hsc : exScore fs' = .ok (fs'.map fun f => (f, k)) := exScore_const fs' hk
    have hsort : sortFacs (fs'.map fun f => (f, k)) = fs'.map fun f => (f, k) :=
      sortFacs_const _ (by intro y hy; rcases List.mem_map.mp hy with ⟨a, _, ha2⟩; rw [← ha2])
    have hfst := map_fst_map_pair k fs'
    simp only [hmap, hsc, hsort, hfst]

theorem C8_witness :
    reorder_joins (.mk "Cross" [scanA, scanB] {}) = rebuildChain [scanA, scanB] ∧
    rebuildChain [scanA, scanB] =
      .ok (.mk "Join" [scanA, scanB]
        { onPred := none, join_keys_left := [], join_keys_right := [] }) :=
  ⟨C8_reorder_ties_keep_order (.mk "Cross" [scanA, scanB] {}) [scanA, scanB]
      [scanA, scanB] 0 (Or.inr rfl) rfl rfl
      (by intro f hf
          rcases List.mem_cons.mp hf with h | h
          . rw [h]; rfl
          . simp only [List.mem_singleton] at h
            rw [h]; rfl),
    rfl⟩

/-! ## Properties of `selection_pushdown` -/

theorem spHelper_select_step (f : Nat) (props : Props) (c : Node) :
    spHelper (f + 1) (.mk "Select" [c] props) =
      match spHelper f c with
      | .error e => .error e
      | .ok child =>
        if (involvedOf props.pred_attrs).isEmpty then .ok (.mk "Select" [child] props)
        else if child.op = "Cross" || child.op = "Join" then
          match child.children with
          | [left, right] =>
            if subsetB (involvedOf props.pred_attrs) (aliases left) then
              match spHelper f (.mk "Select" [left] props) with
              | .error e => .error e
              | .ok pushed => .ok (.mk child.op [pushed, right] child.props)
            else if subsetB (involvedOf props.pred_attrs) (aliases right) then
              match spHelper f (.mk "Select" [right] props) with
              | .error e => .error e
              | .ok pushed => .ok (.mk child.op [left, pushed] child.props)
            else .ok (.mk "Select" [child] props)
          | _ => .error "unpack"
        else .ok (.mk "Select" [child] props) := rfl

theorem involvedOf_eq_nil {l : List String} (h : ∀ a ∈ l, hasDot a = false) :
    involvedOf l = [] := by
  unfold involvedOf
  rw [List.filter_eq_nil_iff.mpr (by intro a ha; simp [h a ha])]
  rfl

/-- C2 (corrected): `selection_pushdown` classifies a `Select` by the
aliases of its dot-qualified referenced attributes only.  (a) A `Select`
none of whose referenced attributes carries a dot stays at its position
(child still processed).  (b) A `Select` whose dot-derived alias set is
nonempty but is a subset of neither side of its processed `Cross`/`Join`
child also stays.  (Attributes without a dot are simply ignored, so a
mixed predicate can still be pushed — see the counterexample.) -/
theorem C2_selection_pushdown_classification :
    (∀ (props : Props) (c c' : Node),
      (∀ a ∈ props.pred_attrs, hasDot a = false) →
      selection_pushdown c = .ok c' →
      selection_pushdown (.mk "Select" [c] props) = .ok (.mk "Select" [c'] props)) ∧
    (∀ (props : Props) (c c' l r : Node),
      selection_pushdown c = .ok c' →
      (c'.op = "Cross" ∨ c'.op = "Join") →
      c'.children = [l, r] →
      (involvedOf props.pred_attrs).isEmpty = false →
      subsetB (involvedOf props.pred_attrs) (aliases l) = false →
      subsetB (involvedOf props.pred_attrs) (aliases r) = false →
      selection_pushdown (.mk "Select" [c] props) = .ok (.mk "Select" [c'] props)) := by
  constructor
  . intro props c c' hnd hc
    rw [selection_pushdown] at hc
    rw [selection_pushdown, nsize_single, spHelper_select_step, hc]
    rw [involvedOf_eq_nil hnd]
    rfl
  . intro props c c' l r hc hor hcc hie hsl hsr
    rw [selection_pushdown] at hc
    rw [selection_pushdown, nsize_single, spHelper_select_step, hc]
    simp only [hie, Bool.false_eq_true, if_false]
    rw [if_pos (by rcases hor with h1 | h1 <;> simp [h1])]
    rw [hcc]
    simp only [hsl, hsr, Bool.false_eq_true, if_false]

/-- C2 counterexample input: `pred_attrs` mixes the qualified `a.x` with
the unqualified `y`. -/
def C2cexIn : Node :=
  .mk "Select" [.mk "Cross" [scanA, scanB] {}]
    { pred := "a.x = 1 AND y = 2", pred_attrs := ["a.x", "y"] }

theorem C2_counterexample :
    "y" ∈ C2cexIn.props.pred_attrs ∧ hasDot "y" = false ∧
    selection_pushdown C2cexIn =
      .ok (.mk "Cross"
        [.mk "Select" [scanA] { pred := "a.x = 1 AND y = 2", pred_attrs := ["a.x", "y"] },
         scanB] {}) :=
  ⟨by simp [C2cexIn], rfl, rfl⟩

theorem C2_witness :
    selection_pushdown (.mk "Select" [.mk "Cross" [scanA, scanB] {}]
        { pred := "x > 0", pred_attrs := ["x"] }) =
      .ok (.mk "Select" [.mk "Cross" [scanA, scanB] {}]
        { pred := "x > 0", pred_attrs := ["x"] }) ∧
    selection_pushdown (.mk "Select" [.mk "Cross" [scanA, scanB] {}]
        { pred := "a.x = b.y", pred_attrs := ["a.x", "b.y"] }) =
      .ok (.mk "Select" [.mk "Cross" [scanA, scanB] {}]
        { pred := "a.x = b.y", pred_attrs := ["a.x", "b.y"] }) :=
  ⟨C2_selection_pushdown_classification.1
      { pred := "x > 0", pred_attrs := ["x"] } (.mk "Cross" [scanA, scanB] {})
      (.mk "Cross" [scanA, scanB] {}) (by intro a ha; simp at ha; rw [ha]; rfl) rfl,
    C2_selection_pushdown_classification.2
      { pred := "a.x = b.y", pred_attrs := ["a.x", "b.y"] }
      (.mk "Cross" [scanA, scanB] {}) (.mk "Cross" [scanA, scanB] {})
      scanA scanB rfl (Or.inl rfl) rfl rfl rfl rfl⟩

/-! ## Properties of `projection_pushdown` -/

theorem insStr_mem (x a : String) :
    ∀ l : List String, a ∈ insStr x l ↔ a = x ∨ a ∈ l := by
  intro l
  induction l with
  | nil => simp [insStr]
  | cons y ys ih =>
    simp only [insStr]
    split
    . simp
    . simp only [List.mem_cons, ih]
      tauto

theorem sortStrs_mem (a : String) :
    ∀ l : List String, a ∈ sortStrs l ↔ a ∈ l := by
  intro l
  induction l with
  | nil => simp [sortStrs]
  | cons x xs ih =>
    simp only [sortStrs, insStr_mem, ih, List.mem_cons]

theorem aliasesL_cons (c : Node) (cs : List Node) :
    aliasesL (c :: cs) = aliases c ++ aliasesL cs := by
  simp only [aliasesL]

theorem aliases_scan (cs : List Node) (pr : Props) :
    aliases (.mk "Scan" cs pr) = [pr.palias] := by
  unfold aliases
  rfl

theorem aliases_other {op : String} (cs : List Node) (pr : Props) (h : op ≠ "Scan") :
    aliases (.mk op cs pr) = aliasesL cs := by
  unfold aliases
  simp [h]

theorem produces_scan (cs : List Node) (pr : Props) (a : String) :
    producesAttr (.mk "Scan" cs pr) a =
      (if hasDot a then decide (aliasOf a = pr.palias) else true) := by
  conv_lhs => unfold producesAttr
  simp

theorem produces_unary {op : String} (hor : op = "Select" ∨ op = "Having" ∨ op = "Order")
    (c : Node) (pr : Props) (a : String) :
    producesAttr (.mk op [c] pr) a = producesAttr c a := by
  rcases hor with h | h | h
  all_goals subst h
  all_goals conv_lhs => unfold producesAttr
  all_goals simp

theorem produces_unary_junk {op : String}
    (hor : op = "Select" ∨ op = "Having" ∨ op = "Order")
    (c d : Node) (ds : List Node) (pr : Props) (a : String) :
    producesAttr (.mk op (c :: d :: ds) pr) a = false := by
  rcases hor with h | h | h
  all_goals subst h
  all_goals conv_lhs => unfold producesAttr
  all_goals simp

theorem produces_join {op : String} (hor : op = "Join" ∨ op = "Cross")
    (l r : Node) (pr : Props) (a : String) :
    producesAttr (.mk op [l, r] pr) a = (producesAttr l a || producesAttr r a) := by
  rcases hor with h | h
  all_goals subst h
  all_goals conv_lhs => unfold producesAttr
  all_goals simp

theorem produces_project (c : Node) (pr : Props) (a : String) :
    producesAttr (.mk "Project" [c] pr) a =
      (if pr.attrs.contains "*" || pr.attrs.isEmpty then producesAttr c a
       else pr.attrs.contains a && producesAttr c a) := by
  conv_lhs => unfold producesAttr
  simp

theorem produces_project_junk (c d : Node) (ds : List Node) (pr : Props) (a : String) :
    producesAttr (.mk "Project" (c :: d :: ds) pr) a = false := by
  conv_lhs => unfold producesAttr
  simp

theorem produces_group (c : Node) (pr : Props) (a : String) :
    producesAttr (.mk "Group" [c] pr) a =
      ((pr.group_by.contains a && producesAttr c a) ||
        (pr.aggs.map Prod.fst).contains a) := by
  conv_lhs => unfold producesAttr
  simp

theorem produces_group_junk (c d : Node) (ds : List Node) (pr : Props) (a : String) :
    producesAttr (.mk "Group" (c :: d :: ds) pr) a = false := by
  conv_lhs => unfold producesAttr
  simp

theorem produces_default {op : String} {cs : List Node} {pr : Props} {a : String}
    (h1 : ¬op = "Scan") (h2 : ¬op = "Select") (h3 : ¬op = "Having")
    (h4 : ¬op = "Join") (h5 : ¬op = "Cross") (h6 : ¬op = "Group")
    (h7 : ¬op = "Project") (h8 : ¬op = "Order") :
    producesAttr (.mk op cs pr) a = false := by
  conv_lhs => unfold producesAttr
  simp [h1, h2, h3, h4, h5, h6, h7, h8]

theorem aliasesL_nil : aliasesL [] = [] := by
  unfold aliasesL
  rfl

theorem pj_unreach :
    ∀ fuel n needed a m, hasDot a = true → aliasOf a ∉ aliases n →
      producesAttr n a = true → pjHelper fuel n needed = .ok m →
      producesAttr m a = true := by
  intro fuel
  induction fuel using Nat.strong_induction_on with
  | _ fuel ih =>
    intro n needed a m hdot hal hp h
    rcases fuel with _ | f
    . simp [pjHelper] at h
    cases n with
    | mk op cs pr =>
      simp only [pjHelper, Node.op_mk, Node.children_mk, Node.props_mk] at h
      split at h
      . rename_i hop
        subst hop
        rw [produces_scan, if_pos hdot] at hp
        rw [aliases_scan] at hal
        exact absurd (of_decide_eq_true hp) (by simpa using hal)
      . split at h
        . rename_i hop1 hop2
          have hor : op = "Select" ∨ op = "Having" := by
            rcases (Bool.or_eq_true _ _).mp hop2 with h1 | h1
            . exact Or.inl (by simpa using h1)
            . exact Or.inr (by simpa using h1)
          split at h
          . simp at h
          . rename_i c rest
            split at h
            . simp at h
            . rename_i c' heq
              simp only [Except.ok.injEq] at h
              subst h
              have hopne : op ≠ "Scan" := hop1
              have hal' : aliasOf a ∉ aliasesL (c :: rest) := by
                rw [aliases_other _ _ hopne] at hal
                exact hal
              rcases rest with _ | ⟨d, ds⟩
              . rw [produces_unary (by tauto) c pr a] at hp
                have halc : aliasOf a ∉ aliases c := by
                  rw [aliasesL_cons, aliasesL_nil] at hal'
                  simpa using hal'
                have hres := ih f (by omega) c (needed ++ pr.pred_attrs) a c' hdot halc hp heq
                rw [produces_unary (by tauto) c' pr a]
                exact hres
              . rw [produces_unary_junk (by tauto) c d ds pr a] at hp
                exact absurd hp (by simp)
        . split at h
          . rename_i hop1 hop2 hop3
            have hor : op = "Join" ∨ op = "Cross" := by
              rcases (Bool.or_eq_true _ _).mp hop3 with h1 | h1
              . exact Or.inl (by simpa using h1)
              . exact Or.inr (by simpa using h1)
            split at h
            . rename_i left right
              split at h
              . simp at h
              . rename_i l' heql
                split at h
                . simp at h
                . rename_i r' heqr
                  simp only [Except.ok.injEq] at h
                  subst h
                  rw [produces_join hor left right pr a] at hp
                  have hopne : op ≠ "Scan" := hop1
                  have hal2 : aliasOf a ∉ aliasesL [left, right] := by
                    rw [aliases_other _ _ hopne] at hal
                    exact hal
                  rw [aliasesL_cons, aliasesL_cons, aliasesL_nil] at hal2
                  simp only [List.mem_append, List.append_nil] at hal2
                  have halL : aliasOf a ∉ aliases left := fun hx => hal2 (Or.inl hx)
                  have halR : aliasOf a ∉ aliases right := fun hx => hal2 (Or.inr hx)
                  rw [produces_join hor l' r' pr a]
                  rcases (Bool.or_eq_true _ _).mp hp with h1 | h1
                  . rw [ih f (by omega) left _ a l' hdot halL h1 heql]
                    simp
                  . rw [ih f (by omega) right _ a r' hdot halR h1 heqr]
                    simp
            . simp at h
          . split at h
            . rename_i hop1 hop2 hop3 hop4
              subst hop4
              split at h
              . simp at h
              . rename_i c rest
                split at h
                . simp at h
                . rename_i c' heq
                  simp only [Except.ok.injEq] at h
                  subst h
                  rcases rest with _ | ⟨d, ds⟩
                  . rw [produces_group c pr a] at hp
                    have halc : aliasOf a ∉ aliases c := by
                      rw [aliases_other _ _ (by simp)] at hal
                      rw [aliasesL_cons, aliasesL_nil] at hal
                      simpa using hal
                    rw [produces_group c' pr a]
                    rcases (Bool.or_eq_true _ _).mp hp with h1 | h1
                    . simp only [Bool.and_eq_true] at h1
                      obtain ⟨h2, h3⟩ := h1
                      have hres := ih f (by omega) c _ a c' hdot halc h3 heq
                      rw [h2, hres]
                      simp
                    . rw [h1]
                      simp
                  . rw [produces_group_junk c d ds pr a] at hp
                    exact absurd hp (by simp)
            . split at h
              . rename_i hop1 hop2 hop3 hop4 hop5
                subst hop5
                split at h
                . simp at h
                . rename_i c rest
                  split at h
                  . simp at h
                  . rename_i c' heq
                    simp only [Except.ok.injEq] at h
                    subst h
                    rcases rest with _ | ⟨d, ds⟩
                    . rw [produces_project c pr a] at hp
                      have halc : aliasOf a ∉ aliases c := by
                        rw [aliases_other _ _ (by simp)] at hal
                        rw [aliasesL_cons, aliasesL_nil] at hal
                        simpa using hal
                      rw [produces_project c' pr a]
                      by_cases hwild : (pr.attrs.contains "*" || pr.attrs.isEmpty) = true
                      . rw [if_pos hwild] at hp ⊢
                        rw [if_pos hwild] at heq
                        exact ih f (by omega) c needed a c' hdot halc hp heq
                      . rw [if_neg hwild] at hp ⊢
                        rw [if_neg hwild] at heq
                        simp only [Bool.and_eq_true] at hp
                        obtain ⟨h2, h3⟩ := hp
                        have hres := ih f (by omega) c pr.attrs a c' hdot halc h3 heq
                        rw [h2, hres]
                        rfl
                    . rw [produces_project_junk c d ds pr a] at hp
                      exact absurd hp (by simp)
              . split at h
                . rename_i hop1 hop2 hop3 hop4 hop5 hop6
                  subst hop6
                  split at h
                  . simp at h
                  . rename_i c rest
                    split at h
                    . simp at h
                    . rename_i c' heq
                      simp only [Except.ok.injEq] at h
                      subst h
                      rcases rest with _ | ⟨d, ds⟩
                      . rw [produces_unary (by tauto) c pr a] at hp
                        have halc : aliasOf a ∉ aliases c := by
                          rw [aliases_other _ _ (by simp)] at hal
                          rw [aliasesL_cons, aliasesL_nil] at hal
                          simpa using hal
                        have hres := ih f (by omega) c (needed ++ pr.order_by) a c' hdot halc hp heq
                        rw [produces_unary (by tauto) c' pr a]
                        exact hres
                      . rw [produces_unary_junk (by tauto) c d ds pr a] at hp
                        exact absurd hp (by simp)
                . rename_i hop1 hop2 hop3 hop4 hop5 hop6
                  have hns : ¬op = "Select" := fun hx => hop2 (by simp [hx])
                  have hnh : ¬op = "Having" := fun hx => hop2 (by simp [hx])
                  have hnj : ¬op = "Join" := fun hx => hop3 (by simp [hx])
                  have hnc : ¬op = "Cross" := fun hx => hop3 (by simp [hx])
                  rw [produces_default hop1 hns hnh hnj hnc hop4 hop5 hop6] at hp
                  exact absurd hp (by simp)

/-- C3 (corrected, restricted to alias-qualified attributes): whenever
`pjHelper` is run with a needed set containing a dot-qualified attribute
`a` that the subtree could deliver before the pass, the rewritten
subtree can still deliver `a` — in particular `a` survives into any
synthetic `Project` inserted above the `Scan` that supplies it.  (Bare,
dot-free required attributes can be cut — see the counterexample.) -/
theorem C3_projection_preserves_qualified :
    ∀ fuel n needed a m, hasDot a = true → a ∈ needed →
      producesAttr n a = true → pjHelper fuel n needed = .ok m →
      producesAttr m a = true := by
  intro fuel
  induction fuel using Nat.strong_induction_on with
  | _ fuel ih =>
    intro n needed a m hdot hmem hp h
    rcases fuel with _ | f
    . simp [pjHelper] at h
    cases n with
    | mk op cs pr =>
      simp only [pjHelper, Node.op_mk, Node.children_mk, Node.props_mk] at h
      split at h
      . rename_i hop
        subst hop
        rw [produces_scan, if_pos hdot] at hp
        have halias : aliasOf a = pr.palias := of_decide_eq_true hp
        split at h
        . simp only [Except.ok.injEq] at h
          subst h
          rw [produces_scan, if_pos hdot]
          exact hp
        . rename_i hcond
          split at h
          . simp only [Except.ok.injEq] at h
            subst h
            rw [produces_scan, if_pos hdot]
            exact hp
          . rename_i hne
            simp only [Except.ok.injEq] at h
            subst h
            have hafilter : a ∈ needed.filter fun x => decide (aliasOf x = pr.palias) :=
              List.mem_filter.mpr ⟨hmem, by simp [halias]⟩
            have hmemA : a ∈ sortStrs (needed.filter
                fun x => decide (aliasOf x = pr.palias)).dedup := by
              rw [sortStrs_mem, List.mem_dedup]
              exact hafilter
            rw [produces_project]
            simp only [Node.props_mk] at *
            rw [if_neg ?hcnd]
            case hcnd =>
              intro hx
              rcases (Bool.or_eq_true _ _).mp hx with h1 | h1
              . have hstar : ("*" : String) ∈ sortStrs (needed.filter
                    fun x => decide (aliasOf x = pr.palias)).dedup := by
                  simpa using h1
                rw [sortStrs_mem, List.mem_dedup] at hstar
                have := (List.mem_filter.mp hstar).1
                simp only [Bool.or_eq_true] at hcond
                exact hcond (Or.inl (by simpa using this))
              . rw [List.isEmpty_iff] at h1
                rw [h1] at hmemA
                cases hmemA
            rw [produces_scan, if_pos hdot, hp]
            simp only [Bool.and_true]
            simpa using hmemA
      . split at h
        . rename_i hop1 hop2
          have hor : op = "Select" ∨ op = "Having" := by
            rcases (Bool.or_eq_true _ _).mp hop2 with h1 | h1
            . exact Or.inl (by simpa using h1)
            . exact Or.inr (by simpa using h1)
          split at h
          . simp at h
          . rename_i c rest
            split at h
            . simp at h
            . rename_i c' heq
              simp only [Except.ok.injEq] at h
              subst h
              rcases rest with _ | ⟨d, ds⟩
              . rw [produces_unary (by tauto) c pr a] at hp
                have hres := ih f (by omega) c (needed ++ pr.pred_attrs) a c' hdot
                  (List.mem_append.mpr (Or.inl hmem)) hp heq
                rw [produces_unary (by tauto) c' pr a]
                exact hres
              . rw [produces_unary_junk (by tauto) c d ds pr a] at hp
                exact absurd hp (by simp)
        . split at h
          . rename_i hop1 hop2 hop3
            have hor : op = "Join" ∨ op = "Cross" := by
              rcases (Bool.or_eq_true _ _).mp hop3 with h1 | h1
              . exact Or.inl (by simpa using h1)
              . exact Or.inr (by simpa using h1)
            split at h
            . rename_i left right
              split at h
              . simp at h
              . rename_i l' heql
                split at h
                . simp at h
                . rename_i r' heqr
                  simp only [Except.ok.injEq] at h
                  subst h
                  rw [produces_join hor left right pr a] at hp
                  rw [produces_join hor l' r' pr a]
                  rcases (Bool.or_eq_true _ _).mp hp with h1 | h1
                  . by_cases hside : aliasOf a ∈ aliases left
                    . have hmem2 : a ∈ needed.filter
                          (fun x => (aliases left).contains (aliasOf x)) ++
                          (pr.join_keys_left ++ pr.join_keys_right).filter
                            fun k => (aliases left).contains (aliasOf k) :=
                        List.mem_append.mpr (Or.inl (List.mem_filter.mpr
                          ⟨hmem, List.elem_iff.mpr hside⟩))
                      rw [ih f (by omega) left _ a l' hdot hmem2 h1 heql]
                      simp
                    . rw [pj_unreach f left _ a l' hdot hside h1 heql]
                      simp
                  . by_cases hside : aliasOf a ∈ aliases right
                    . have hmem2 : a ∈ needed.filter
                          (fun x => (aliases right).contains (aliasOf x)) ++
                          (pr.join_keys_left ++ pr.join_keys_right).filter
                            fun k => (aliases right).contains (aliasOf k) :=
                        List.mem_append.mpr (Or.inl (List.mem_filter.mpr
                          ⟨hmem, List.elem_iff.mpr hside⟩))
                      rw [ih f (by omega) right _ a r' hdot hmem2 h1 heqr]
                      simp
                    . rw [pj_unreach f right _ a r' hdot hside h1 heqr]
                      simp
            . simp at h
          . split at h
            . rename_i hop1 hop2 hop3 hop4
              subst hop4
              split at h
              . simp at h
              . rename_i c rest
                split at h
                . simp at h
                . rename_i c' heq
                  simp only [Except.ok.injEq] at h
                  subst h
                  rcases rest with _ | ⟨d, ds⟩
                  . rw [produces_group c pr a] at hp
                    rw [produces_group c' pr a]
                    rcases (Bool.or_eq_true _ _).mp hp with h1 | h1
                    . simp only [Bool.and_eq_true] at h1
                      obtain ⟨h2, h3⟩ := h1
                      have hmem2 : a ∈ pr.group_by ++ aggAttrsOf pr.aggs :=
                        List.mem_append.mpr (Or.inl (List.elem_iff.mp h2))
                      have hres := ih f (by omega) c _ a c' hdot hmem2 h3 heq
                      rw [h2, hres]
                      simp
                    . rw [h1]
                      simp
                  . rw [produces_group_junk c d ds pr a] at hp
                    exact absurd hp (by simp)
            . split at h
              . rename_i hop1 hop2 hop3 hop4 hop5
                subst hop5
                split at h
                . simp at h
                . rename_i c rest
                  split at h
                  . simp at h
                  . rename_i c' heq
                    simp only [Except.ok.injEq] at h
                    subst h
                    rcases rest with _ | ⟨d, ds⟩
                    . rw [produces_project c pr a] at hp
                      rw [produces_project c' pr a]
                      by_cases hwild : (pr.attrs.contains "*" || pr.attrs.isEmpty) = true
                      . rw [if_pos hwild] at hp ⊢
                        rw [if_pos hwild] at heq
                        exact ih f (by omega) c needed a c' hdot hmem hp heq
                      . rw [if_neg hwild] at hp ⊢
                        rw [if_neg hwild] at heq
                        simp only [Bool.and_eq_true] at hp
                        obtain ⟨h2, h3⟩ := hp
                        have hres := ih f (by omega) c pr.attrs a c' hdot
                          (List.elem_iff.mp h2) h3 heq
                        rw [h2, hres]
                        rfl
                    . rw [produces_project_junk c d ds pr a] at hp
                      exact absurd hp (by simp)
              . split at h
                . rename_i hop1 hop2 hop3 hop4 hop5 hop6
                  subst hop6
                  split at h
                  . simp at h
                  . rename_i c rest
                    split at h
                    . simp at h
                    . rename_i c' heq
                      simp only [Except.ok.injEq] at h
                      subst h
                      rcases rest with _ | ⟨d, ds⟩
                      . rw [produces_unary (by tauto) c pr a] at hp
                        have hres := ih f (by omega) c (needed ++ pr.order_by) a c' hdot
                          (List.mem_append.mpr (Or.inl hmem)) hp heq
                        rw [produces_unary (by tauto) c' pr a]
                        exact hres
                      . rw [produces_unary_junk (by tauto) c d ds pr a] at hp
                        exact absurd hp (by simp)
                . rename_i hop1 hop2 hop3 hop4 hop5 hop6
                  have hns : ¬op = "Select" := fun hx => hop2 (by simp [hx])
                  have hnh : ¬op = "Having" := fun hx => hop2 (by simp [hx])
                  have hnj : ¬op = "Join" := fun hx => hop3 (by simp [hx])
                  have hnc : ¬op = "Cross" := fun hx => hop3 (by simp [hx])
                  rw [produces_default hop1 hns hnh hnj hnc hop4 hop5 hop6] at hp
                  exact absurd hp (by simp)

/-- C3 counterexample input: the `Select` references the bare (dot-free)
attribute `b`; the synthetic `Project` inserted above the `Scan` keeps
only `t.a`, cutting `b` which the `Scan` delivered before the pass. -/
def C3cexIn : Node :=
  .mk "Project" [.mk "Select" [scanT] { pred := "b > 0", pred_attrs := ["b"] }]
    { attrs := ["t.a"] }

theorem C3_counterexample :
    projection_pushdown C3cexIn =
      .ok (.mk "Project"
        [.mk "Select" [.mk "Project" [scanT] { attrs := ["t.a"] }]
          { pred := "b > 0", pred_attrs := ["b"] }]
        { attrs := ["t.a"] }) ∧
    producesAttr scanT "b" = true ∧
    producesAttr (.mk "Project" [scanT] { attrs := ["t.a"] }) "b" = false :=
  ⟨rfl, rfl, rfl⟩

theorem C3_witness :
    producesAttr (.mk "Project" [scanT] { attrs := ["t.a"] }) "t.a" = true :=
  C3_projection_preserves_qualified 1 scanT ["t.a"] "t.a"
    (.mk "Project" [scanT] { attrs := ["t.a"] }) rfl (by simp) rfl rfl

/-! ## Step lemmas for `wfA`, `projCount`, `topProject` -/

theorem wfA_scan (cs : List Node) (pr : Props) :
    wfA (.mk "Scan" cs pr) = cs.isEmpty := by
  conv_lhs => unfold wfA
  simp

theorem wfA_unary {op : String}
    (hor : op = "Select" ∨ op = "Project" ∨ op = "Group" ∨ op = "Order")
    (c : Node) (pr : Props) : wfA (.mk op [c] pr) = wfA c := by
  rcases hor with h | h | h | h
  all_goals subst h
  all_goals conv_lhs => unfold wfA
  all_goals simp

theorem wfA_having (c : Node) (pr : Props) :
    wfA (.mk "Having" [c] pr) = (c.op = "Group" && wfA c) := by
  conv_lhs => unfold wfA
  simp

theorem wfA_join {op : String} (hor : op = "Join" ∨ op = "Cross")
    (l r : Node) (pr : Props) : wfA (.mk op [l, r] pr) = (wfA l && wfA r) := by
  rcases hor with h | h
  all_goals subst h
  all_goals conv_lhs => unfold wfA
  all_goals simp

theorem projCount_mk (op : String) (cs : List Node) (pr : Props) :
    projCount (.mk op cs pr) = (if op = "Project" then 1 else 0) + projCountL cs := by
  conv_lhs => unfold projCount

theorem projCountL_nil : projCountL [] = 0 := by
  unfold projCountL
  rfl

theorem projCountL_cons (c : Node) (cs : List Node) :
    projCountL (c :: cs) = projCount c + projCountL cs := by
  simp only [projCountL]

theorem projCountL_append : ∀ l1 l2 : List Node,
    projCountL (l1 ++ l2) = projCountL l1 + projCountL l2 := by
  intro l1 l2
  induction l1 with
  | nil => simp [projCountL_nil]
  | cons c cs ih =>
    simp only [List.cons_append, projCountL_cons, ih]
    omega

theorem topProject_project (cs : List Node) (pr : Props) :
    topProject (.mk "Project" cs pr) = true := by
  unfold topProject
  simp

theorem topProject_order (c : Node) (pr : Props) :
    topProject (.mk "Order" [c] pr) = (c.op = "Project") := by
  unfold topProject
  simp

/-! ## Generic totality/preservation plumbing -/

theorem exMap_forall {g : Node → Except String Node} {Q : Node → Node → Prop} :
    ∀ l : List Node, (∀ c ∈ l, ∃ c', g c = .ok c' ∧ Q c c') →
      ∃ l', exMap g l = .ok l' ∧ List.Forall₂ Q l l' := by
  intro l
  induction l with
  | nil => intro _; exact ⟨[], rfl, List.Forall₂.nil⟩
  | cons c cs ih =>
    intro H
    obtain ⟨c', hc1, hc2⟩ := H c (by simp)
    obtain ⟨cs', hcs1, hcs2⟩ := ih fun d hd => H d (by simp [hd])
    exact ⟨c' :: cs', by simp only [exMap, hc1, hcs1], List.Forall₂.cons hc2 hcs2⟩

theorem projCountL_of_forall2 {Q : Node → Node → Prop}
    (hQ : ∀ c c', Q c c' → projCount c' = projCount c) :
    ∀ {l l' : List Node}, List.Forall₂ Q l l' → projCountL l' = projCountL l := by
  intro l l' h
  induction h with
  | nil => rfl
  | cons hq _ ih =>
    rw [projCountL_cons, projCountL_cons, ih, hQ _ _ hq]

theorem nsizeL_of_forall2 {Q : Node → Node → Prop}
    (hQ : ∀ c c', Q c c' → nsize c' = nsize c) :
    ∀ {l l' : List Node}, List.Forall₂ Q l l' → nsizeL l' = nsizeL l := by
  intro l l' h
  induction h with
  | nil => rfl
  | cons hq _ ih =>
    simp only [nsizeL]
    rw [ih, hQ _ _ hq]

theorem wfA_rebuild {op : String} {cs cs' : List Node} {pr : Props}
    (hw : wfA (.mk op cs pr) = true)
    (h2 : List.Forall₂ (fun c c' => wfA c' = true ∧ (c.op = "Group" → c'.op = "Group"))
      cs cs') :
    wfA (.mk op cs' pr) = true := by
  unfold wfA at hw
  split at hw
  . rename_i hop
    rw [List.isEmpty_iff] at hw
    subst hw
    rcases h2 with _ | _
    rw [hop, wfA_scan]
    rfl
  . split at hw
    . rename_i hop1 hop2
      split at hw
      . rename_i c1
        rcases h2 with _ | ⟨hq, htail⟩
        rcases htail with _ | _
        rename_i c1'
        have hor : op = "Select" ∨ op = "Project" ∨ op = "Group" ∨ op = "Order" := by
          simp only [Bool.or_eq_true, decide_eq_true_eq] at hop2
          tauto
        rw [wfA_unary hor]
        exact hq.1
      . simp at hw
    . split at hw
      . rename_i hop1 hop2 hop3
        split at hw
        . rename_i c1
          rcases h2 with _ | ⟨hq, htail⟩
          rcases htail with _ | _
          rename_i c1'
          subst hop3
          rw [wfA_having]
          simp only [Bool.and_eq_true] at hw
          simp only [Bool.and_eq_true, decide_eq_true_eq]
          exact ⟨hq.2 (by simpa using hw.1), hq.1⟩
        . simp at hw
      . split at hw
        . rename_i hop1 hop2 hop3 hop4
          split at hw
          . rename_i l1 r1
            rcases h2 with _ | ⟨hql, htail⟩
            rcases htail with _ | ⟨hqr, htail2⟩
            rcases htail2 with _ | _
            have hor : op = "Join" ∨ op = "Cross" := by
              simp only [Bool.or_eq_true, decide_eq_true_eq] at hop4
              tauto
            rw [wfA_join hor]
            simp only [Bool.and_eq_true] at hw ⊢
            exact ⟨hql.1, hqr.1⟩
          . simp at hw
        . simp at hw

/-! ## Root-placement eliminator -/

theorem topProject_shape {op : String} {cs : List Node} {pr : Props}
    (h : topProject (.mk op cs pr) = true) :
    op = "Project" ∨ (op = "Order" ∧ ∃ c, cs = [c] ∧ c.op = "Project") := by
  by_cases h1 : op = "Project"
  . exact Or.inl h1
  . by_cases h2 : op = "Order"
    . subst h2
      rcases cs with _ | ⟨c, _ | ⟨d, rest⟩⟩
      . exact absurd h (by unfold topProject; simp)
      . refine Or.inr ⟨rfl, c, rfl, ?_⟩
        rw [topProject_order] at h
        simpa using h
      . exact absurd h (by unfold topProject; simp)
    . exact absurd h (by unfold topProject; simp [h1, h2])

/-! ## Master lemma: `breakup_conjuncts` -/

theorem mkSelChain_wfA (ps attrs : List String) :
    ∀ c, wfA c = true → wfA (mkSelChain ps attrs c) = true := by
  induction ps with
  | nil => intro c hc; exact hc
  | cons p ps ih =>
    intro c hc
    simp only [mkSelChain, List.foldr_cons]
    rw [wfA_unary (Or.inl rfl)]
    exact ih c hc

theorem mkSelChain_projCount (ps attrs : List String) :
    ∀ c, projCount (mkSelChain ps attrs c) = projCount c := by
  induction ps with
  | nil => intro c; rfl
  | cons p ps ih =>
    intro c
    simp only [mkSelChain, List.foldr_cons]
    rw [projCount_mk, projCountL_cons, projCountL_nil]
    have := ih c
    simp only [mkSelChain] at this
    rw [this]
    simp

theorem mkSelChain_op (p : String) (ps attrs : List String) (c : Node) :
    (mkSelChain (p :: ps) attrs c).op = "Select" := rfl

theorem buc_master :
    ∀ fuel n, nsize n ≤ fuel → wfA n = true →
      ∃ m, bucHelper fuel n = .ok m ∧ wfA m = true ∧
        projCount m = projCount n ∧ m.op = n.op ∧
        (topProject n = true → topProject m = true) := by
  intro fuel
  induction fuel using Nat.strong_induction_on with
  | _ fuel ih =>
    intro n hf hw
    have hpos := nsize_pos n
    rcases fuel with _ | f
    . omega
    cases n with
    | mk op cs pr =>
      rw [nsize_mk] at hf
      simp only [bucHelper, Node.op_mk, Node.children_mk, Node.props_mk]
      split
      . rename_i hcond
        simp only [Bool.and_eq_true, decide_eq_true_eq] at hcond
        obtain ⟨hopSel, hAND⟩ := hcond
        subst hopSel
        obtain ⟨c0, hcs, hwc⟩ := wfA_select_shape hw
        subst hcs
        refine ⟨mkSelChain (splitAND pr.pred) pr.pred_attrs c0, rfl,
          mkSelChain_wfA _ _ _ hwc, ?_, ?_, ?_⟩
        . rw [mkSelChain_projCount, projCount_mk, projCountL_cons, projCountL_nil]
          simp
        . rcases hsp : splitAND pr.pred with _ | ⟨p, ps⟩
          . exact absurd hsp (splitAND_ne_nil _)
          . rw [mkSelChain_op]
        . intro htp
          exact absurd htp (by unfold topProject; simp)
      . have H : ∀ c ∈ cs, ∃ c', bucHelper f c = .ok c' ∧
            (wfA c' = true ∧ projCount c' = projCount c ∧ c'.op = c.op) := by
          intro c hc
          have hle := nsize_mem_le hc
          obtain ⟨m, h1, h2, h3, h4, h5⟩ := ih f (by omega) c (by omega) (wfA_children hw c hc)
          exact ⟨m, h1, h2, h3, h4⟩
        obtain ⟨cs', hex1, hex2⟩ := exMap_forall cs H
        refine ⟨.mk op cs' pr, by rw [hex1], ?_, ?_, rfl, ?_⟩
        . exact wfA_rebuild hw (hex2.imp fun a b hq => ⟨hq.1, fun hg => by rw [hq.2.2, hg]⟩)
        . rw [projCount_mk, projCount_mk,
            projCountL_of_forall2 (fun c c' hq => hq.2.1) hex2]
        . intro htp
          rcases topProject_shape htp with h1 | ⟨h1, c, hcs, hcop⟩
          . subst h1
            exact topProject_project cs' pr
          . subst h1
            subst hcs
            rcases hex2 with _ | ⟨hq, htail⟩
            rcases htail with _ | _
            rename_i c'
            rw [topProject_order]
            simp [hq.2.2, hcop]

/-! ## Master lemma: `joinize` -/

theorem wfA_join_shape {op : String} (hor : op = "Join" ∨ op = "Cross")
    {cs : List Node} {pr : Props} (h : wfA (.mk op cs pr) = true) :
    ∃ l r, cs = [l, r] ∧ wfA l = true ∧ wfA r = true := by
  rcases cs with _ | ⟨l, _ | ⟨r, _ | _⟩⟩
  all_goals rcases hor with h1 | h1
  all_goals subst h1
  all_goals rw [show wfA = wfA from rfl] at h
  case _ => exact absurd h (by unfold wfA; simp)
  case _ => exact absurd h (by unfold wfA; simp)
  case _ => exact absurd h (by unfold wfA; simp)
  case _ => exact absurd h (by unfold wfA; simp)
  case _ =>
    rw [wfA_join (Or.inl rfl)] at h
    simp only [Bool.and_eq_true] at h
    exact ⟨l, r, rfl, h.1, h.2⟩
  case _ =>
    rw [wfA_join (Or.inr rfl)] at h
    simp only [Bool.and_eq_true] at h
    exact ⟨l, r, rfl, h.1, h.2⟩
  case _ => exact absurd h (by unfold wfA; simp)
  case _ => exact absurd h (by unfold wfA; simp)

theorem jz_master :
    ∀ fuel n, nsize n ≤ fuel → wfA n = true →
      ∃ m, jzHelper fuel n = .ok m ∧ wfA m = true ∧
        projCount m = projCount n ∧ (m.op = n.op ∨ n.op = "Select") ∧
        (topProject n = true → topProject m = true) := by
  intro fuel
  induction fuel using Nat.strong_induction_on with
  | _ fuel ih =>
    intro n hf hw
    have hpos := nsize_pos n
    rcases fuel with _ | f
    . omega
    cases n with
    | mk op cs pr =>
      rw [nsize_mk] at hf
      simp only [jzHelper, Node.op_mk, Node.children_mk, Node.props_mk]
      have H : ∀ c ∈ cs, ∃ c', jzHelper f c = .ok c' ∧
          (wfA c' = true ∧ projCount c' = projCount c ∧ (c'.op = c.op ∨ c.op = "Select")) := by
        intro c hc
        have hle := nsize_mem_le hc
        obtain ⟨m, h1, h2, h3, h4, h5⟩ := ih f (by omega) c (by omega) (wfA_children hw c hc)
        exact ⟨m, h1, h2, h3, h4⟩
      obtain ⟨cs', hex1, hex2⟩ := exMap_forall cs H
      simp only [hex1]
      by_cases hop : op = "Select"
      . subst hop
        obtain ⟨c0, hcs, hwc⟩ := wfA_select_shape hw
        subst hcs
        rcases hex2 with _ | ⟨hq, htail⟩
        rcases htail with _ | _
        rename_i c0'
        simp only [String.reduceEq, reduceIte]
        by_cases hcross : c0'.op = "Cross"
        . rw [if_pos hcross]
          rcases hparse : parseEqPred pr.pred with _ | ⟨g1, g2, g3, g4⟩
          . refine ⟨.mk "Select" [c0'] pr, rfl, ?_, ?_, Or.inr trivial,
              fun htp => absurd htp (by unfold topProject; simp)⟩
            . rw [wfA_unary (Or.inl rfl)]
              exact hq.1
            . rw [projCount_mk, projCount_mk, projCountL_cons, projCountL_cons,
                projCountL_nil, hq.2.1]
          . cases c0' with
            | mk op2 cs2 pr2 =>
              simp only [Node.op_mk] at hcross
              subst hcross
              obtain ⟨l, r, hcs2, hwl, hwr⟩ := wfA_join_shape (Or.inr rfl) hq.1
              subst hcs2
              refine ⟨.mk "Join" [l, r] _, rfl, ?_, ?_, Or.inr trivial,
              fun htp => absurd htp (by unfold topProject; simp)⟩
              . rw [wfA_join (Or.inl rfl)]
                simp only [Bool.and_eq_true]
                exact ⟨hwl, hwr⟩
              . have h5 := hq.2.1
                rw [projCount_mk, projCountL_cons, projCountL_cons, projCountL_nil] at h5
                rw [projCount_mk, projCountL_cons, projCountL_cons, projCountL_nil,
                  projCount_mk, projCountL_cons, projCountL_nil]
                simp only [String.reduceEq, reduceIte] at h5 ⊢
                omega
        . rw [if_neg hcross]
          refine ⟨.mk "Select" [c0'] pr, rfl, ?_, ?_, Or.inr trivial,
              fun htp => absurd htp (by unfold topProject; simp)⟩
          . rw [wfA_unary (Or.inl rfl)]
            exact hq.1
          . rw [projCount_mk, projCount_mk, projCountL_cons, projCountL_cons,
              projCountL_nil, hq.2.1]
      . rw [if_neg hop]
        refine ⟨.mk op cs' pr, rfl, ?_, ?_, Or.inl rfl, ?_⟩
        . apply wfA_rebuild hw
          apply hex2.imp
          intro a b hq
          refine ⟨hq.1, fun hg => ?_⟩
          rcases hq.2.2 with h1 | h1
          . rw [h1, hg]
          . rw [hg] at h1
            simp at h1
        . rw [projCount_mk, projCount_mk,
            projCountL_of_forall2 (fun c c' hq => hq.2.1) hex2]
        . intro htp
          rcases topProject_shape htp with h1 | ⟨h1, c, hcs, hcop⟩
          . subst h1
            exact topProject_project cs' pr
          . subst h1
            subst hcs
            rcases hex2 with _ | ⟨hq, htail⟩
            rcases htail with _ | _
            rename_i c'
            rw [topProject_order]
            rcases hq.2.2 with h2 | h2
            . simp [h2, hcop]
            . rw [hcop] at h2
              simp at h2

/-! ## More shape eliminators and totality plumbing -/

theorem wfA_unary_shape {op : String}
    (hor : op = "Select" ∨ op = "Project" ∨ op = "Group" ∨ op = "Order")
    {cs : List Node} {pr : Props} (h : wfA (.mk op cs pr) = true) :
    ∃ c, cs = [c] ∧ wfA c = true := by
  rcases cs with _ | ⟨c, _ | ⟨d, rest⟩⟩
  . rcases hor with h1 | h1 | h1 | h1 <;> subst h1 <;>
      exact absurd h (by unfold wfA; simp)
  . refine ⟨c, rfl, ?_⟩
    rw [wfA_unary hor] at h
    exact h
  . rcases hor with h1 | h1 | h1 | h1 <;> subst h1 <;>
      exact absurd h (by unfold wfA; simp)

theorem wfA_having_shape {cs : List Node} {pr : Props}
    (h : wfA (.mk "Having" cs pr) = true) :
    ∃ c, cs = [c] ∧ c.op = "Group" ∧ wfA c = true := by
  rcases cs with _ | ⟨c, _ | ⟨d, rest⟩⟩
  . exact absurd h (by unfold wfA; simp)
  . refine ⟨c, rfl, ?_⟩
    rw [wfA_having] at h
    simp only [Bool.and_eq_true, decide_eq_true_eq] at h
    exact h
  . exact absurd h (by unfold wfA; simp)

theorem stMap_forall {g : Node → List String → Except String (Node × List String)}
    {Q : Node → Node → Prop} :
    ∀ (l : List Node) (seen : List String),
      (∀ c ∈ l, ∀ s, ∃ c' s', g c s = .ok (c', s') ∧ Q c c') →
      ∃ l' s', stMap g l seen = .ok (l', s') ∧ List.Forall₂ Q l l' := by
  intro l
  induction l with
  | nil => intro seen _; exact ⟨[], seen, rfl, List.Forall₂.nil⟩
  | cons c cs ih =>
    intro seen H
    obtain ⟨c', s1, hc1, hc2⟩ := H c (by simp) seen
    obtain ⟨cs', s2, hcs1, hcs2⟩ := ih s1 fun d hd => H d (by simp [hd])
    exact ⟨c' :: cs', s2, by simp only [stMap, hc1, hcs1], List.Forall₂.cons hc2 hcs2⟩

theorem exSumN_total {g : Node → Except String Nat} :
    ∀ l : List Node, (∀ c ∈ l, ∃ k, g c = .ok k) →
      ∃ s, exSumN g l = .ok s := by
  intro l
  induction l with
  | nil => intro _; exact ⟨0, rfl⟩
  | cons c cs ih =>
    intro H
    obtain ⟨k, hk⟩ := H c (by simp)
    obtain ⟨s, hs⟩ := ih fun d hd => H d (by simp [hd])
    exact ⟨k + s, by simp only [exSumN, hk, hs]⟩

theorem cs_total :
    ∀ fuel n, nsize n ≤ fuel → wfA n = true → ∃ k, csHelper fuel n = .ok k := by
  intro fuel
  induction fuel using Nat.strong_induction_on with
  | _ fuel ih =>
    intro n hf hw
    have hpos := nsize_pos n
    rcases fuel with _ | f
    . omega
    cases n with
    | mk op cs pr =>
      rw [nsize_mk] at hf
      simp only [csHelper, Node.op_mk, Node.children_mk]
      split
      . rename_i hop
        subst hop
        obtain ⟨c0, hcs, hwc⟩ := wfA_select_shape hw
        subst hcs
        have hle : nsize c0 ≤ f := by
          simp only [nsizeL] at hf
          have := nsize_pos c0
          omega
        obtain ⟨k, hk⟩ := ih f (by omega) c0 hle hwc
        exact ⟨1 + k, by simp only [hk]⟩
      . apply exSumN_total
        intro c hc
        have hle := nsize_mem_le hc
        exact ih f (by omega) c (by omega) (wfA_children hw c hc)

theorem countSelX_total {n : Node} (hw : wfA n = true) : ∃ k, countSelX n = .ok k :=
  cs_total (nsize n) n le_rfl hw

theorem exScore_total :
    ∀ l : List Node, (∀ c ∈ l, wfA c = true) →
      ∃ ps, exScore l = .ok ps ∧ ps.map Prod.fst = l := by
  intro l
  induction l with
  | nil => intro _; exact ⟨[], rfl, rfl⟩
  | cons c cs ih =>
    intro H
    obtain ⟨k, hk⟩ := countSelX_total (H c (by simp))
    obtain ⟨ps, hps1, hps2⟩ := ih fun d hd => H d (by simp [hd])
    exact ⟨(c, k) :: ps, by simp only [exScore, hk, hps1], by simp [hps2]⟩

theorem insFac_perm (x : Node × Nat) :
    ∀ l : List (Node × Nat), List.Perm (insFac x l) (x :: l) := by
  intro l
  induction l with
  | nil => simp [insFac]
  | cons y ys ih =>
    simp only [insFac]
    split
    . exact List.Perm.refl _
    . exact List.Perm.trans (List.Perm.cons y ih) (List.Perm.swap x y ys)

theorem sortFacs_perm :
    ∀ l : List (Node × Nat), List.Perm (sortFacs l) l := by
  intro l
  induction l with
  | nil => exact List.Perm.refl _
  | cons x xs ih =>
    simp only [sortFacs]
    exact List.Perm.trans (insFac_perm x _) (List.Perm.cons x ih)

theorem projCountL_eq_sum : ∀ l : List Node, projCountL l = (l.map projCount).sum := by
  intro l
  induction l with
  | nil => simp [projCountL_nil]
  | cons c cs ih => simp [projCountL_cons, ih]

theorem rebuild_wfA :
    ∀ (rest : List Node) (cur : Node), wfA cur = true → (∀ f ∈ rest, wfA f = true) →
      wfA (rest.foldl (fun cur nxt => Node.mk "Join" [cur, nxt]
        { onPred := none, join_keys_left := [], join_keys_right := [] }) cur) = true := by
  intro rest
  induction rest with
  | nil => intro cur hc _; exact hc
  | cons f fs ih =>
    intro cur hc H
    simp only [List.foldl_cons]
    apply ih
    . rw [wfA_join (Or.inl rfl)]
      simp only [Bool.and_eq_true]
      exact ⟨hc, H f (by simp)⟩
    . intro d hd
      exact H d (by simp [hd])

theorem rebuild_projCount :
    ∀ (rest : List Node) (cur : Node),
      projCount (rest.foldl (fun cur nxt => Node.mk "Join" [cur, nxt]
        { onPred := none, join_keys_left := [], join_keys_right := [] }) cur) =
        projCount cur + projCountL rest := by
  intro rest
  induction rest with
  | nil => intro cur; simp only [List.foldl_nil, projCountL_nil]; omega
  | cons f fs ih =>
    intro cur
    simp only [List.foldl_cons, projCountL_cons]
    rw [ih]
    rw [projCount_mk, projCountL_cons, projCountL_cons, projCountL_nil]
    simp only [String.reduceEq, reduceIte]
    omega

/-! ## Master lemma: `having_to_where` -/

theorem htw_master :
    ∀ fuel n, nsize n ≤ fuel → wfA n = true →
      ∃ m, htwHelper fuel n = .ok m ∧ wfA m = true ∧
        projCount m = projCount n ∧ (m.op = n.op ∨ n.op = "Having") ∧
        (topProject n = true → topProject m = true) := by
  intro fuel
  induction fuel using Nat.strong_induction_on with
  | _ fuel ih =>
    intro n hf hw
    have hpos := nsize_pos n
    rcases fuel with _ | f
    . omega
    cases n with
    | mk op cs pr =>
      rw [nsize_mk] at hf
      simp only [htwHelper, Node.op_mk, Node.children_mk, Node.props_mk]
      by_cases hop : op = "Having"
      . subst hop
        obtain ⟨c, hcs, hcop, hwc⟩ := wfA_having_shape hw
        subst hcs
        simp only [String.reduceEq, reduceIte]
        have hle : nsize c ≤ f := by
          simp only [nsizeL] at hf
          have := nsize_pos c
          omega
        obtain ⟨g, hg1, hg2, hg3, hg4, hg5⟩ := ih f (by omega) c hle hwc
        have hgop : g.op = "Group" := by
          rcases hg4 with h1 | h1
          . rw [h1, hcop]
          . rw [h1] at hcop
            simp at hcop
        by_cases hagg : hasAggCall pr.pred = true
        . rw [if_pos hagg]
          simp only [hg1]
          refine ⟨.mk "Having" [g] pr, rfl, ?_, ?_, Or.inl rfl,
              fun htp => absurd htp (by unfold topProject; simp)⟩
          . rw [wfA_having]
            simp only [Bool.and_eq_true, decide_eq_true_eq]
            exact ⟨hgop, hg2⟩
          . rw [projCount_mk, projCount_mk, projCountL_cons, projCountL_cons,
              projCountL_nil, hg3]
        . rw [if_neg hagg]
          simp only [hg1]
          cases g with
          | mk gop gcs gpr =>
            simp only [Node.op_mk] at hgop
            subst hgop
            obtain ⟨gc, hgcs, hwgc⟩ :=
              wfA_unary_shape (Or.inr (Or.inr (Or.inl rfl))) hg2
            subst hgcs
            simp only [Node.children_mk, Node.op_mk, Node.props_mk]
            refine ⟨.mk "Group" [.mk "Select" [gc] pr] gpr, rfl, ?_, ?_, Or.inr trivial,
              fun htp => absurd htp (by unfold topProject; simp)⟩
            . rw [wfA_unary (Or.inr (Or.inr (Or.inl rfl))),
                wfA_unary (Or.inl rfl)]
              exact hwgc
            . have h5 := hg3
              simp only [projCount_mk, projCountL_cons, projCountL_nil] at h5 ⊢
              simp only [String.reduceEq, reduceIte] at h5 ⊢
              omega
      . rw [if_neg hop]
        have H : ∀ c ∈ cs, ∃ c', htwHelper f c = .ok c' ∧
            (wfA c' = true ∧ projCount c' = projCount c ∧
              (c'.op = c.op ∨ c.op = "Having")) := by
          intro c hc
          have hle := nsize_mem_le hc
          obtain ⟨m, h1, h2, h3, h4, h5⟩ := ih f (by omega) c (by omega) (wfA_children hw c hc)
          exact ⟨m, h1, h2, h3, h4⟩
        obtain ⟨cs', hex1, hex2⟩ := exMap_forall cs H
        simp only [hex1]
        refine ⟨.mk op cs' pr, rfl, ?_, ?_, Or.inl rfl, ?_⟩
        . apply wfA_rebuild hw
          apply hex2.imp
          intro a b hq
          refine ⟨hq.1, fun hg => ?_⟩
          rcases hq.2.2 with h1 | h1
          . rw [h1, hg]
          . rw [hg] at h1
            simp at h1
        . rw [projCount_mk, projCount_mk,
            projCountL_of_forall2 (fun c c' hq => hq.2.1) hex2]
        . intro htp
          rcases topProject_shape htp with h1 | ⟨h1, c, hcs, hcop⟩
          . subst h1
            exact topProject_project cs' pr
          . subst h1
            subst hcs
            rcases hex2 with _ | ⟨hq, htail⟩
            rcases htail with _ | _
            rename_i c'
            rw [topProject_order]
            rcases hq.2.2 with h2 | h2
            . simp [h2, hcop]
            . rw [hcop] at h2
              simp at h2

/-! ## Master lemma: `dedup_selections` -/

theorem dd_master :
    ∀ fuel n seen, nsize n ≤ fuel → wfA n = true →
      ∃ m s', ddHelper fuel n seen = .ok (m, s') ∧ wfA m = true ∧
        projCount m = projCount n ∧ (m.op = n.op ∨ n.op = "Select") ∧
        (topProject n = true → topProject m = true) := by
  intro fuel
  induction fuel using Nat.strong_induction_on with
  | _ fuel ih =>
    intro n seen hf hw
    have hpos := nsize_pos n
    rcases fuel with _ | f
    . omega
    cases n with
    | mk op cs pr =>
      rw [nsize_mk] at hf
      simp only [ddHelper, Node.op_mk, Node.children_mk, Node.props_mk]
      by_cases hop : op = "Select"
      . subst hop
        obtain ⟨c, hcs, hwc⟩ := wfA_select_shape hw
        subst hcs
        simp only [String.reduceEq, reduceIte]
        have hle : nsize c ≤ f := by
          simp only [nsizeL] at hf
          have := nsize_pos c
          omega
        by_cases hdup : seen.contains pr.pred = true
        . rw [if_pos hdup]
          obtain ⟨m, s', h1, h2, h3, h4, h5⟩ := ih f (by omega) c seen hle hwc
          refine ⟨m, s', h1, h2, ?_, Or.inr trivial,
              fun htp => absurd htp (by unfold topProject; simp)⟩
          rw [h3]
          simp only [projCount_mk, projCountL_cons, projCountL_nil,
            String.reduceEq, reduceIte]
          omega
        . rw [if_neg hdup]
          obtain ⟨m, s', h1, h2, h3, h4, h5⟩ := ih f (by omega) c (pr.pred :: seen) hle hwc
          simp only [h1]
          refine ⟨.mk "Select" [m] pr, s', rfl, ?_, ?_, Or.inl rfl,
              fun htp => absurd htp (by unfold topProject; simp)⟩
          . rw [wfA_unary (Or.inl rfl)]
            exact h2
          . simp only [projCount_mk, projCountL_cons, projCountL_nil, h3]
      . rw [if_neg hop]
        have H : ∀ c ∈ cs, ∀ s, ∃ c' s', ddHelper f c s = .ok (c', s') ∧
            (wfA c' = true ∧ projCount c' = projCount c ∧
              (c'.op = c.op ∨ c.op = "Select")) := by
          intro c hc s
          have hle := nsize_mem_le hc
          obtain ⟨m, s', h1, h2, h3, h4, h5⟩ :=
            ih f (by omega) c s (by omega) (wfA_children hw c hc)
          exact ⟨m, s', h1, h2, h3, h4⟩
        obtain ⟨cs', s', hex1, hex2⟩ := stMap_forall cs seen H
        simp only [hex1]
        refine ⟨.mk op cs' pr, s', rfl, ?_, ?_, Or.inl rfl, ?_⟩
        . apply wfA_rebuild hw
          apply hex2.imp
          intro a b hq
          refine ⟨hq.1, fun hg => ?_⟩
          rcases hq.2.2 with h1 | h1
          . rw [h1, hg]
          . rw [hg] at h1
            simp at h1
        . rw [projCount_mk, projCount_mk,
            projCountL_of_forall2 (fun c c' hq => hq.2.1) hex2]
        . intro htp
          rcases topProject_shape htp with h1 | ⟨h1, c, hcs, hcop⟩
          . subst h1
            exact topProject_project cs' pr
          . subst h1
            subst hcs
            rcases hex2 with _ | ⟨hq, htail⟩
            rcases htail with _ | _
            rename_i c'
            rw [topProject_order]
            rcases hq.2.2 with h2 | h2
            . simp [h2, hcop]
            . rw [hcop] at h2
              simp at h2

/-! ## Master lemma: `reorder_joins` -/

theorem cf_master :
    ∀ fuel n, nsize n ≤ fuel → wfA n = true →
      ∃ fs, cfHelper fuel n = .ok fs ∧ (∀ g ∈ fs, wfA g = true) ∧
        projCountL fs = projCount n := by
  intro fuel
  induction fuel using Nat.strong_induction_on with
  | _ fuel ih =>
    intro n hf hw
    have hpos := nsize_pos n
    rcases fuel with _ | f
    . omega
    cases n with
    | mk op cs pr =>
      rw [nsize_mk] at hf
      simp only [cfHelper, Node.op_mk, Node.children_mk]
      by_cases hjc : (op = "Join" || op = "Cross") = true
      . rw [if_pos hjc]
        have hor : op = "Join" ∨ op = "Cross" := by
          rcases Bool.or_eq_true _ _ |>.mp hjc with h1 | h1
          . exact Or.inl (by simpa using h1)
          . exact Or.inr (by simpa using h1)
        obtain ⟨l, r, hcs, hwl, hwr⟩ := wfA_join_shape hor hw
        subst hcs
        have hfl : nsize l ≤ f := by
          simp only [nsizeL] at hf
          have := nsize_pos r
          omega
        have hfr : nsize r ≤ f := by
          simp only [nsizeL] at hf
          have := nsize_pos l
          omega
        obtain ⟨ls, hl1, hl2, hl3⟩ := ih f (by omega) l hfl hwl
        obtain ⟨rs, hr1, hr2, hr3⟩ := ih f (by omega) r hfr hwr
        simp only [hl1, hr1]
        refine ⟨ls ++ rs, rfl, ?_, ?_⟩
        . intro g hg
          rcases List.mem_append.mp hg with hm | hm
          . exact hl2 g hm
          . exact hr2 g hm
        . rw [projCountL_append, hl3, hr3, projCount_mk, projCountL_cons,
            projCountL_cons, projCountL_nil]
          rcases hor with h1 | h1 <;> subst h1 <;>
            simp only [String.reduceEq, reduceIte] <;> omega
      . rw [if_neg hjc]
        refine ⟨[.mk op cs pr], rfl, ?_, ?_⟩
        . intro g hg
          simp only [List.mem_singleton] at hg
          subst hg
          exact hw
        . rw [projCountL_cons, projCountL_nil]
          omega

theorem forall2_mem_right {Q : Node → Node → Prop} :
    ∀ {l l' : List Node}, List.Forall₂ Q l l' → ∀ c' ∈ l', ∃ c ∈ l, Q c c' := by
  intro l l' h
  induction h with
  | nil => intro c' hc'; simp at hc'
  | cons hq _ ih =>
    intro c' hc'
    rcases List.mem_cons.mp hc' with h1 | h1
    . subst h1
      exact ⟨_, by simp, hq⟩
    . obtain ⟨c, hc, hQ⟩ := ih c' h1
      exact ⟨c, by simp [hc], hQ⟩

theorem projCountL_perm {l l' : List Node} (h : List.Perm l l') :
    projCountL l = projCountL l' := by
  rw [projCountL_eq_sum, projCountL_eq_sum]
  exact List.Perm.sum_eq (h.map projCount)

theorem rebuildChain_master {lst : List Node} (hne : lst ≠ [])
    (hwf : ∀ g ∈ lst, wfA g = true) :
    ∃ m, rebuildChain lst = .ok m ∧ wfA m = true ∧ projCount m = projCountL lst := by
  rcases lst with _ | ⟨g, rest⟩
  . exact absurd rfl hne
  refine ⟨_, rfl, ?_, ?_⟩
  . exact rebuild_wfA rest g (hwf g (by simp)) fun d hd => hwf d (by simp [hd])
  . rw [rebuild_projCount, projCountL_cons]

theorem rj_master :
    ∀ fuel n, nsize n ≤ fuel → wfA n = true →
      ∃ m, rjHelper fuel n = .ok m ∧ wfA m = true ∧
        projCount m = projCount n ∧
        (m.op = n.op ∨ n.op = "Join" ∨ n.op = "Cross") ∧
        (topProject n = true → topProject m = true) := by
  intro fuel
  induction fuel using Nat.strong_induction_on with
  | _ fuel ih =>
    intro n hf hw
    have hpos := nsize_pos n
    rcases fuel with _ | f
    . omega
    cases n with
    | mk op cs pr =>
      rw [nsize_mk] at hf
      simp only [rjHelper, Node.op_mk, Node.children_mk, Node.props_mk]
      by_cases hjc : (op = "Join" || op = "Cross") = true
      . rw [if_pos hjc]
        have hor : op = "Join" ∨ op = "Cross" := by
          rcases Bool.or_eq_true _ _ |>.mp hjc with h1 | h1
          . exact Or.inl (by simpa using h1)
          . exact Or.inr (by simpa using h1)
        obtain ⟨fs, hcf, hwfs, hpc⟩ :=
          cf_master (nsize (.mk op cs pr)) (.mk op cs pr) le_rfl hw
        have hcf2 : collectFactorsX (.mk op cs pr) = .ok fs := hcf
        simp only [hcf2]
        have H : ∀ g ∈ fs, ∃ g', rjHelper f g = .ok g' ∧
            (wfA g' = true ∧ projCount g' = projCount g) := by
          intro g hg
          have hb := cf_bound_strict hor hcf2 g hg
          rw [nsize_mk] at hb
          obtain ⟨m, h1, h2, h3, _, _⟩ := ih f (by omega) g (by omega) (hwfs g hg)
          exact ⟨m, h1, h2, h3⟩
        obtain ⟨fs', hex1, hex2⟩ := exMap_forall fs H
        simp only [hex1]
        have hwfs' : ∀ g ∈ fs', wfA g = true := by
          intro g hg
          obtain ⟨c, _, hQ⟩ := forall2_mem_right hex2 g hg
          exact hQ.1
        obtain ⟨ps, hps1, hps2⟩ := exScore_total fs' hwfs'
        simp only [hps1]
        have hfsne : fs ≠ [] := cf_ne_nil _ _ _ hcf2
        have hlen : fs'.length = fs.length := (List.Forall₂.length_eq hex2).symm
        have hfs'ne : fs' ≠ [] := by
          intro hcon
          rw [hcon] at hlen
          exact hfsne (List.length_eq_zero.mp hlen.symm)
        have hpsne : ps ≠ [] := by
          intro hcon
          rw [hcon] at hps2
          exact hfs'ne hps2.symm
        have hlstne : (sortFacs ps).map Prod.fst ≠ [] := by
          intro hcon
          have := (sortFacs_perm ps).length_eq
          rw [List.map_eq_nil_iff] at hcon
          rw [hcon] at this
          exact hpsne (List.length_eq_zero.mp this.symm)
        have hlstwf : ∀ g ∈ (sortFacs ps).map Prod.fst, wfA g = true := by
          intro g hg
          obtain ⟨y, hy1, hy2⟩ := List.mem_map.mp hg
          have hy3 : y ∈ ps := ((sortFacs_perm ps).mem_iff).mp hy1
          apply hwfs'
          rw [← hps2]
          exact hy2 ▸ List.mem_map_of_mem Prod.fst hy3
        obtain ⟨m, hm1, hm2, hm3⟩ := rebuildChain_master hlstne hlstwf
        refine ⟨m, hm1, hm2, ?_, Or.inr hor, ?_⟩
        . rw [hm3]
          have hperm : List.Perm ((sortFacs ps).map Prod.fst) (ps.map Prod.fst) :=
            (sortFacs_perm ps).map Prod.fst
          rw [projCountL_perm hperm, hps2,
            projCountL_of_forall2 (fun c c' hq => hq.2) hex2, hpc]
        . intro htp
          rcases topProject_shape htp with h1 | ⟨h1, c2, hcs2, hcop2⟩ <;>
            rcases hor with h2 | h2 <;> rw [h1] at h2 <;> simp at h2
      . rw [if_neg hjc]
        have H : ∀ c ∈ cs, ∃ c', rjHelper f c = .ok c' ∧
            (wfA c' = true ∧ projCount c' = projCount c ∧
              (c'.op = c.op ∨ c.op = "Join" ∨ c.op = "Cross")) := by
          intro c hc
          have hle := nsize_mem_le hc
          obtain ⟨m, h1, h2, h3, h4, h5⟩ := ih f (by omega) c (by omega) (wfA_children hw c hc)
          exact ⟨m, h1, h2, h3, h4⟩
        obtain ⟨cs', hex1, hex2⟩ := exMap_forall cs H
        simp only [hex1]
        refine ⟨.mk op cs' pr, rfl, ?_, ?_, Or.inl rfl, ?_⟩
        . apply wfA_rebuild hw
          apply hex2.imp
          intro a b hq
          refine ⟨hq.1, fun hg => ?_⟩
          rcases hq.2.2 with h1 | h1
          . rw [h1, hg]
          . rw [hg] at h1
            rcases h1 with h1 | h1 <;> simp at h1
        . rw [projCount_mk, projCount_mk,
            projCountL_of_forall2 (fun c c' hq => hq.2.1) hex2]
        . intro htp
          rcases topProject_shape htp with h1 | ⟨h1, c, hcs, hcop⟩
          . subst h1
            exact topProject_project cs' pr
          . subst h1
            subst hcs
            rcases hex2 with _ | ⟨hq, htail⟩
            rcases htail with _ | _
            rename_i c'
            rw [topProject_order]
            rcases hq.2.2 with h2 | h2
            . simp [h2, hcop]
            . rcases h2 with h2 | h2 <;> rw [hcop] at h2 <;> simp at h2

/-! ## Master lemma: `selection_pushdown` -/

theorem sp_master :
    ∀ fuel n, nsize n ≤ fuel → wfA n = true →
      ∃ m, spHelper fuel n = .ok m ∧ wfA m = true ∧
        projCount m = projCount n ∧ nsize m = nsize n ∧
        (m.op = n.op ∨ n.op = "Select") ∧
        (topProject n = true → topProject m = true) := by
  intro fuel
  induction fuel using Nat.strong_induction_on with
  | _ fuel ih =>
    intro n hf hw
    have hpos := nsize_pos n
    rcases fuel with _ | f
    . omega
    cases n with
    | mk op cs pr =>
      rw [nsize_mk] at hf
      simp only [spHelper, Node.op_mk, Node.children_mk, Node.props_mk]
      by_cases hop : op = "Select"
      . subst hop
        obtain ⟨c, hcs, hwc⟩ := wfA_select_shape hw
        subst hcs
        simp only [String.reduceEq, reduceIte]
        have hle : nsize c ≤ f := by
          simp only [nsizeL] at hf
          have := nsize_pos c
          omega
        obtain ⟨child, hc1, hc2, hc3, hc4, hc5, hc6⟩ := ih f (by omega) c hle hwc
        simp only [hc1]
        by_cases hinv : (involvedOf pr.pred_attrs).isEmpty = true
        . rw [if_pos hinv]
          refine ⟨.mk "Select" [child] pr, rfl, ?_, ?_, ?_, Or.inr trivial,
            fun htp => absurd htp (by unfold topProject; simp)⟩
          . rw [wfA_unary (Or.inl rfl)]
            exact hc2
          . simp only [projCount_mk, projCountL_cons, projCountL_nil]
            omega
          . simp only [nsize_mk, nsizeL]
            omega
        . rw [if_neg hinv]
          by_cases hcj : (child.op = "Cross" || child.op = "Join") = true
          . rw [if_pos hcj]
            cases child with
            | mk cop ccs cpr =>
              simp only [Node.op_mk] at hcj hc5
              simp only [Node.op_mk, Node.children_mk, Node.props_mk]
              have hor2 : cop = "Join" ∨ cop = "Cross" := by
                rcases Bool.or_eq_true _ _ |>.mp hcj with h1 | h1
                . exact Or.inr (by simpa using h1)
                . exact Or.inl (by simpa using h1)
              have hcnp : ¬ cop = "Project" := by
                rcases hor2 with h1 | h1 <;> subst h1 <;> simp
              obtain ⟨l, r, hccs, hwl, hwr⟩ := wfA_join_shape hor2 hc2
              subst hccs
              simp only [nsize_mk, nsizeL] at hc4
              have hlef : nsize (Node.mk "Select" [l] pr) ≤ f := by
                rw [nsize_mk]
                simp only [nsizeL]
                have := nsize_pos r
                omega
              have href : nsize (Node.mk "Select" [r] pr) ≤ f := by
                rw [nsize_mk]
                simp only [nsizeL]
                have := nsize_pos l
                omega
              split
              . rename_i x0 left right heq
                simp only [List.cons.injEq, and_true] at heq
                obtain ⟨hql, hqr⟩ := heq
                subst hql
                subst hqr
                by_cases hsl : subsetB (involvedOf pr.pred_attrs) (aliases l) = true
                . rw [if_pos hsl]
                  obtain ⟨pushed, hp1, hp2, hp3, hp4, hp5, hp6⟩ :=
                    ih f (by omega) (.mk "Select" [l] pr) hlef
                      (by rw [wfA_unary (Or.inl rfl)]; exact hwl)
                  simp only [hp1]
                  refine ⟨.mk cop [pushed, r] cpr, rfl, ?_, ?_, ?_, Or.inr trivial,
            fun htp => absurd htp (by unfold topProject; simp)⟩
                  . rw [wfA_join hor2]
                    simp only [Bool.and_eq_true]
                    exact ⟨hp2, hwr⟩
                  . simp only [projCount_mk, projCountL_cons, projCountL_nil,
                      if_neg hcnp, String.reduceEq, reduceIte] at hc3 hp3 ⊢
                    omega
                  . simp only [nsize_mk, nsizeL] at hp4 ⊢
                    omega
                . rw [if_neg hsl]
                  by_cases hsr : subsetB (involvedOf pr.pred_attrs) (aliases r) = true
                  . rw [if_pos hsr]
                    obtain ⟨pushed, hp1, hp2, hp3, hp4, hp5, hp6⟩ :=
                      ih f (by omega) (.mk "Select" [r] pr) href
                        (by rw [wfA_unary (Or.inl rfl)]; exact hwr)
                    simp only [hp1]
                    refine ⟨.mk cop [l, pushed] cpr, rfl, ?_, ?_, ?_, Or.inr trivial,
            fun htp => absurd htp (by unfold topProject; simp)⟩
                    . rw [wfA_join hor2]
                      simp only [Bool.and_eq_true]
                      exact ⟨hwl, hp2⟩
                    . simp only [projCount_mk, projCountL_cons, projCountL_nil,
                        if_neg hcnp, String.reduceEq, reduceIte] at hc3 hp3 ⊢
                      omega
                    . simp only [nsize_mk, nsizeL] at hp4 ⊢
                      omega
                  . rw [if_neg hsr]
                    refine ⟨.mk "Select" [.mk cop [l, r] cpr] pr, rfl, ?_, ?_, ?_,
                      Or.inr trivial,
                      fun htp => absurd htp (by unfold topProject; simp)⟩
                    . rw [wfA_unary (Or.inl rfl)]
                      exact hc2
                    . simp only [projCount_mk, projCountL_cons, projCountL_nil,
                        if_neg hcnp, String.reduceEq, reduceIte] at hc3 ⊢
                      omega
                    . simp only [nsize_mk, nsizeL] at hc4 ⊢
                      omega
              . rename_i x0 hfalse
                exact absurd rfl (hfalse l r)
          . rw [if_neg hcj]
            refine ⟨.mk "Select" [child] pr, rfl, ?_, ?_, ?_, Or.inr trivial,
            fun htp => absurd htp (by unfold topProject; simp)⟩
            . rw [wfA_unary (Or.inl rfl)]
              exact hc2
            . simp only [projCount_mk, projCountL_cons, projCountL_nil]
              omega
            . simp only [nsize_mk, nsizeL]
              omega
      . rw [if_neg hop]
        have H : ∀ c ∈ cs, ∃ c', spHelper f c = .ok c' ∧
            (wfA c' = true ∧ projCount c' = projCount c ∧ nsize c' = nsize c ∧
              (c'.op = c.op ∨ c.op = "Select")) := by
          intro c hc
          have hle := nsize_mem_le hc
          obtain ⟨m, h1, h2, h3, h4, h5, h6⟩ :=
            ih f (by omega) c (by omega) (wfA_children hw c hc)
          exact ⟨m, h1, h2, h3, h4, h5⟩
        obtain ⟨cs', hex1, hex2⟩ := exMap_forall cs H
        simp only [hex1]
        refine ⟨.mk op cs' pr, rfl, ?_, ?_, ?_, Or.inl rfl, ?_⟩
        . apply wfA_rebuild hw
          apply hex2.imp
          intro a b hq
          refine ⟨hq.1, fun hg => ?_⟩
          rcases hq.2.2.2 with h1 | h1
          . rw [h1, hg]
          . rw [hg] at h1
            simp at h1
        . rw [projCount_mk, projCount_mk,
            projCountL_of_forall2 (fun c c' hq => hq.2.1) hex2]
        . rw [nsize_mk, nsize_mk,
            nsizeL_of_forall2 (fun c c' hq => hq.2.2.1) hex2]
        . intro htp
          rcases topProject_shape htp with h1 | ⟨h1, c, hcs, hcop⟩
          . subst h1
            exact topProject_project cs' pr
          . subst h1
            subst hcs
            rcases hex2 with _ | ⟨hq, htail⟩
            rcases htail with _ | _
            rename_i c'
            rw [topProject_order]
            rcases hq.2.2.2 with h2 | h2
            . simp [h2, hcop]
            . rw [hcop] at h2
              simp at h2

/-! ## Master lemma: `projection_pushdown` -/

theorem pj_master :
    ∀ fuel n needed, nsize n ≤ fuel → wfA n = true →
      ∃ m, pjHelper fuel n needed = .ok m ∧ wfA m = true ∧
        (m.op = n.op ∨ n.op = "Scan") ∧
        (topProject n = true → topProject m = true) := by
  intro fuel
  induction fuel using Nat.strong_induction_on with
  | _ fuel ih =>
    intro n needed hf hw
    have hpos := nsize_pos n
    rcases fuel with _ | f
    . omega
    cases n with
    | mk op cs pr =>
      rw [nsize_mk] at hf
      simp only [pjHelper, Node.op_mk, Node.children_mk, Node.props_mk]
      by_cases hsc : op = "Scan"
      . subst hsc
        rw [wfA_scan] at hw
        have hcs : cs = [] := List.isEmpty_iff.mp hw
        subst hcs
        simp only [String.reduceEq, reduceIte]
        by_cases hstar : (needed.contains "*" || needed.isEmpty) = true
        . rw [if_pos hstar]
          refine ⟨.mk "Scan" [] pr, rfl, ?_, Or.inl rfl,
            fun htp => absurd htp (by unfold topProject; simp)⟩
          rw [wfA_scan]
          rfl
        . rw [if_neg hstar]
          by_cases hemp : ((needed.filter fun a => aliasOf a = pr.palias).isEmpty) = true
          . simp only [if_pos hemp]
            refine ⟨.mk "Scan" [] pr, rfl, ?_, Or.inl rfl,
            fun htp => absurd htp (by unfold topProject; simp)⟩
            rw [wfA_scan]
            rfl
          . simp only [if_neg hemp]
            refine ⟨.mk "Project" [.mk "Scan" [] pr] _, rfl, ?_, Or.inr trivial,
            fun htp => absurd htp (by unfold topProject; simp)⟩
            rw [wfA_unary (Or.inr (Or.inl rfl)), wfA_scan]
            rfl
      . rw [if_neg hsc]
        by_cases hsh : (op = "Select" || op = "Having") = true
        . rw [if_pos hsh]
          have hsh2 : op = "Select" ∨ op = "Having" := by
            rcases Bool.or_eq_true _ _ |>.mp hsh with h1 | h1
            . exact Or.inl (by simpa using h1)
            . exact Or.inr (by simpa using h1)
          have hshape : ∃ c, cs = [c] ∧ wfA c = true ∧
              (op = "Having" → c.op = "Group") := by
            rcases hsh2 with h1 | h1
            . subst h1
              obtain ⟨c, h2, h3⟩ := wfA_select_shape hw
              refine ⟨c, h2, h3, ?_⟩
              intro hcon
              simp at hcon
            . subst h1
              obtain ⟨c, h2, h3, h4⟩ := wfA_having_shape hw
              exact ⟨c, h2, h4, fun _ => h3⟩
          obtain ⟨c, hcs, hwc, hgp⟩ := hshape
          subst hcs
          have hle : nsize c ≤ f := by
            simp only [nsizeL] at hf
            omega
          obtain ⟨c', hc1, hc2, hc3, hc4⟩ :=
            ih f (by omega) c (needed ++ pr.pred_attrs) hle hwc
          simp only [hc1]
          refine ⟨.mk op [c'] pr, rfl, ?_, Or.inl rfl, ?_⟩
          . rcases hsh2 with h1 | h1
            . subst h1
              rw [wfA_unary (Or.inl rfl)]
              exact hc2
            . subst h1
              rw [wfA_having]
              simp only [Bool.and_eq_true, decide_eq_true_eq]
              refine ⟨?_, hc2⟩
              rcases hc3 with h2 | h2
              . rw [h2, hgp rfl]
              . have h3 := hgp rfl
                rw [h2] at h3
                simp at h3
          . intro htp
            rcases topProject_shape htp with h1 | ⟨h1, c2, hcs2, hcop2⟩ <;>
              rcases hsh2 with h2 | h2 <;> rw [h2] at h1 <;> simp at h1
        . rw [if_neg hsh]
          by_cases hjc : (op = "Join" || op = "Cross") = true
          . rw [if_pos hjc]
            have hor2 : op = "Join" ∨ op = "Cross" := by
              rcases Bool.or_eq_true _ _ |>.mp hjc with h1 | h1
              . exact Or.inl (by simpa using h1)
              . exact Or.inr (by simpa using h1)
            obtain ⟨l, r, hcs, hwl, hwr⟩ := wfA_join_shape hor2 hw
            subst hcs
            have hlef : nsize l ≤ f := by
              simp only [nsizeL] at hf
              have := nsize_pos r
              omega
            have href : nsize r ≤ f := by
              simp only [nsizeL] at hf
              have := nsize_pos l
              omega
            split
            . rename_i x0 left right heq
              simp only [List.cons.injEq, and_true] at heq
              obtain ⟨hql, hqr⟩ := heq
              subst hql
              subst hqr
              obtain ⟨l', hl1, hl2, hl3, hl4⟩ := ih f (by omega) l
                ((needed.filter fun a => (aliases l).contains (aliasOf a)) ++
                  ((pr.join_keys_left ++ pr.join_keys_right).filter
                    fun k => (aliases l).contains (aliasOf k)))
                hlef hwl
              obtain ⟨r', hr1, hr2, hr3, hr4⟩ := ih f (by omega) r
                ((needed.filter fun a => (aliases r).contains (aliasOf a)) ++
                  ((pr.join_keys_left ++ pr.join_keys_right).filter
                    fun k => (aliases r).contains (aliasOf k)))
                href hwr
              simp only [hl1, hr1]
              refine ⟨.mk op [l', r'] pr, rfl, ?_, Or.inl rfl, ?_⟩
              . rw [wfA_join hor2]
                simp only [Bool.and_eq_true]
                exact ⟨hl2, hr2⟩
              . intro htp
                rcases topProject_shape htp with h1 | ⟨h1, c2, hcs2, hcop2⟩ <;>
                  rcases hor2 with h2 | h2 <;> rw [h2] at h1 <;> simp at h1
            . rename_i x0 hfalse
              exact absurd rfl (hfalse l r)
          . rw [if_neg hjc]
            by_cases hgr : op = "Group"
            . subst hgr
              rw [if_pos rfl]
              obtain ⟨c, hcs, hwc⟩ :=
                wfA_unary_shape (Or.inr (Or.inr (Or.inl rfl))) hw
              subst hcs
              have hle : nsize c ≤ f := by
                simp only [nsizeL] at hf
                omega
              obtain ⟨c', hc1, hc2, hc3, hc4⟩ :=
                ih f (by omega) c (pr.group_by ++ aggAttrsOf pr.aggs) hle hwc
              simp only [hc1]
              refine ⟨.mk "Group" [c'] pr, rfl, ?_, Or.inl rfl,
                fun htp => absurd htp (by unfold topProject; simp)⟩
              rw [wfA_unary (Or.inr (Or.inr (Or.inl rfl)))]
              exact hc2
            . rw [if_neg hgr]
              by_cases hpj : op = "Project"
              . subst hpj
                rw [if_pos rfl]
                obtain ⟨c, hcs, hwc⟩ :=
                  wfA_unary_shape (Or.inr (Or.inl rfl)) hw
                subst hcs
                have hle : nsize c ≤ f := by
                  simp only [nsizeL] at hf
                  omega
                obtain ⟨c', hc1, hc2, hc3, hc4⟩ := ih f (by omega) c
                  (if (pr.attrs.contains "*" || pr.attrs.isEmpty) = true
                    then needed else pr.attrs) hle hwc
                simp only [hc1]
                refine ⟨.mk "Project" [c'] pr, rfl, ?_, Or.inl rfl,
                  fun htp => topProject_project [c'] pr⟩
                rw [wfA_unary (Or.inr (Or.inl rfl))]
                exact hc2
              . rw [if_neg hpj]
                by_cases hod : op = "Order"
                . subst hod
                  rw [if_pos rfl]
                  obtain ⟨c, hcs, hwc⟩ :=
                    wfA_unary_shape (Or.inr (Or.inr (Or.inr rfl))) hw
                  subst hcs
                  have hle : nsize c ≤ f := by
                    simp only [nsizeL] at hf
                    omega
                  obtain ⟨c', hc1, hc2, hc3, hc4⟩ :=
                    ih f (by omega) c (needed ++ pr.order_by) hle hwc
                  simp only [hc1]
                  refine ⟨.mk "Order" [c'] pr, rfl, ?_, Or.inl rfl, ?_⟩
                  . rw [wfA_unary (Or.inr (Or.inr (Or.inr rfl)))]
                    exact hc2
                  . intro htp
                    rcases topProject_shape htp with h1 | ⟨h1, c2, hcs2, hcop2⟩
                    . simp at h1
                    . simp only [List.cons.injEq, and_true] at hcs2
                      subst hcs2
                      rw [topProject_order]
                      rcases hc3 with h2 | h2
                      . simp [h2, hcop2]
                      . rw [hcop2] at h2
                        simp at h2
                . rw [if_neg hod]
                  have H : ∀ c ∈ cs, ∃ c', pjHelper f c needed = .ok c' ∧
                      (wfA c' = true ∧ (c'.op = c.op ∨ c.op = "Scan")) := by
                    intro c hc
                    have hle := nsize_mem_le hc
                    obtain ⟨m, h1, h2, h3, h4⟩ :=
                      ih f (by omega) c needed (by omega) (wfA_children hw c hc)
                    exact ⟨m, h1, h2, h3⟩
                  obtain ⟨cs', hex1, hex2⟩ := exMap_forall cs H
                  simp only [hex1]
                  refine ⟨.mk op cs' pr, rfl, ?_, Or.inl rfl, ?_⟩
                  . apply wfA_rebuild hw
                    apply hex2.imp
                    intro a b hq
                    refine ⟨hq.1, fun hg => ?_⟩
                    rcases hq.2 with h1 | h1
                    . rw [h1, hg]
                    . rw [hg] at h1
                      simp at h1
                  . intro htp
                    rcases topProject_shape htp with h1 | ⟨h1, c2, hcs2, hcop2⟩
                    . exact absurd h1 hpj
                    . exact absurd h1 hod

/-! ## Canonical trees satisfy the invariants the masters preserve -/

theorem crossChain_wfA :
    ∀ k n, nsize n ≤ k → crossChain n = true → wfA n = true := by
  intro k
  induction k using Nat.strong_induction_on with
  | _ k ih =>
    intro n hk h
    have hpos := nsize_pos n
    cases n with
    | mk op cs pr =>
      rw [nsize_mk] at hk
      unfold crossChain at h
      split at h
      . rename_i h1
        subst h1
        rw [wfA_scan]
        exact h
      . split at h
        . rename_i h1 h2
          subst h2
          split at h
          . rename_i l r
            simp only [Bool.and_eq_true] at h
            simp only [nsizeL] at hk
            have hl := nsize_pos l
            have hr := nsize_pos r
            rw [wfA_join (Or.inr rfl)]
            simp only [Bool.and_eq_true]
            exact ⟨ih (nsize l) (by omega) l le_rfl h.1,
              ih (nsize r) (by omega) r le_rfl h.2⟩
          . simp at h
        . simp at h

theorem crossChain_projCount :
    ∀ k n, nsize n ≤ k → crossChain n = true → projCount n = 0 := by
  intro k
  induction k using Nat.strong_induction_on with
  | _ k ih =>
    intro n hk h
    have hpos := nsize_pos n
    cases n with
    | mk op cs pr =>
      rw [nsize_mk] at hk
      unfold crossChain at h
      split at h
      . rename_i h1
        subst h1
        rw [List.isEmpty_iff] at h
        subst h
        rw [projCount_mk, projCountL_nil]
        simp
      . split at h
        . rename_i h1 h2
          subst h2
          split at h
          . rename_i l r
            simp only [Bool.and_eq_true] at h
            simp only [nsizeL] at hk
            have hl := nsize_pos l
            have hr := nsize_pos r
            rw [projCount_mk, projCountL_cons, projCountL_cons, projCountL_nil,
              ih (nsize l) (by omega) l le_rfl h.1,
              ih (nsize r) (by omega) r le_rfl h.2]
            simp
          . simp at h
        . simp at h

theorem selChain_wfA :
    ∀ k n, nsize n ≤ k → selChain n = true → wfA n = true := by
  intro k
  induction k using Nat.strong_induction_on with
  | _ k ih =>
    intro n hk h
    have hpos := nsize_pos n
    cases n with
    | mk op cs pr =>
      rw [nsize_mk] at hk
      unfold selChain at h
      split at h
      . rename_i h1
        subst h1
        split at h
        . rename_i c
          simp only [nsizeL] at hk
          have hc := nsize_pos c
          rw [wfA_unary (Or.inl rfl)]
          exact ih (nsize c) (by omega) c le_rfl h
        . simp at h
      . exact crossChain_wfA (nsize (.mk op cs pr)) _ le_rfl h

theorem selChain_projCount :
    ∀ k n, nsize n ≤ k → selChain n = true → projCount n = 0 := by
  intro k
  induction k using Nat.strong_induction_on with
  | _ k ih =>
    intro n hk h
    have hpos := nsize_pos n
    cases n with
    | mk op cs pr =>
      rw [nsize_mk] at hk
      unfold selChain at h
      split at h
      . rename_i h1
        subst h1
        split at h
        . rename_i c
          simp only [nsizeL] at hk
          have hc := nsize_pos c
          rw [projCount_mk, projCountL_cons, projCountL_nil,
            ih (nsize c) (by omega) c le_rfl h]
          simp
        . simp at h
      . exact crossChain_projCount (nsize (.mk op cs pr)) _ le_rfl h

theorem groupHavingPart_wfA {n : Node} (h : groupHavingPart n = true) :
    wfA n = true := by
  cases n with
  | mk op cs pr =>
    unfold groupHavingPart at h
    split at h
    rename_i op2 cs2 pr2 heq
    injection heq with e1 e2 e3
    subst e1
    subst e2
    subst e3
    split at h
    . rename_i h1
      subst h1
      split at h
      . rename_i c gpr
        rw [wfA_having]
        simp only [Bool.and_eq_true, decide_eq_true_eq]
        refine ⟨by rw [Node.op_mk], ?_⟩
        rw [wfA_unary (Or.inr (Or.inr (Or.inl rfl)))]
        exact selChain_wfA (nsize c) c le_rfl h
      . simp at h
    . split at h
      . rename_i h1 h2
        subst h2
        split at h
        . rename_i c
          rw [wfA_unary (Or.inr (Or.inr (Or.inl rfl)))]
          exact selChain_wfA (nsize c) c le_rfl h
        . simp at h
      . exact selChain_wfA (nsize (.mk op cs pr)) _ le_rfl h

theorem groupHavingPart_projCount {n : Node} (h : groupHavingPart n = true) :
    projCount n = 0 := by
  cases n with
  | mk op cs pr =>
    unfold groupHavingPart at h
    split at h
    rename_i op2 cs2 pr2 heq
    injection heq with e1 e2 e3
    subst e1
    subst e2
    subst e3
    split at h
    . rename_i h1
      subst h1
      split at h
      . rename_i c gpr
        rw [projCount_mk, projCountL_cons, projCountL_nil, projCount_mk,
          projCountL_cons, projCountL_nil, selChain_projCount (nsize c) c le_rfl h]
        simp
      . simp at h
    . split at h
      . rename_i h1 h2
        subst h2
        split at h
        . rename_i c
          rw [projCount_mk, projCountL_cons, projCountL_nil,
            selChain_projCount (nsize c) c le_rfl h]
          simp
        . simp at h
      . exact selChain_projCount (nsize (.mk op cs pr)) _ le_rfl h

theorem projPart_shape {n : Node} (h : projPart n = true) :
    ∃ c pr, n = .mk "Project" [c] pr ∧ groupHavingPart c = true := by
  cases n with
  | mk op cs pr =>
    unfold projPart at h
    split at h
    rename_i op2 cs2 pr2 heq
    injection heq with e1 e2 e3
    subst e1
    subst e2
    subst e3
    split at h
    . rename_i h1
      subst h1
      split at h
      . rename_i c
        exact ⟨c, pr, rfl, h⟩
      . simp at h
    . simp at h

theorem projPart_wfA {n : Node} (h : projPart n = true) : wfA n = true := by
  obtain ⟨c, pr, hn, hc⟩ := projPart_shape h
  subst hn
  rw [wfA_unary (Or.inr (Or.inl rfl))]
  exact groupHavingPart_wfA hc

theorem projPart_projCount {n : Node} (h : projPart n = true) :
    projCount n = 1 := by
  obtain ⟨c, pr, hn, hc⟩ := projPart_shape h
  subst hn
  rw [projCount_mk, projCountL_cons, projCountL_nil, groupHavingPart_projCount hc]
  simp

theorem canonical_shape {n : Node} (h : canonical n = true) :
    projPart n = true ∨ ∃ c pr, n = .mk "Order" [c] pr ∧ projPart c = true := by
  cases n with
  | mk op cs pr =>
    unfold canonical at h
    split at h
    rename_i op2 cs2 pr2 heq
    injection heq with e1 e2 e3
    subst e1
    subst e2
    subst e3
    split at h
    . rename_i h1
      subst h1
      split at h
      . rename_i c
        exact Or.inr ⟨c, pr, rfl, h⟩
      . simp at h
    . exact Or.inl h

theorem canonical_wfA {n : Node} (h : canonical n = true) : wfA n = true := by
  rcases canonical_shape h with h1 | ⟨c, pr, hn, hc⟩
  . exact projPart_wfA h1
  . subst hn
    rw [wfA_unary (Or.inr (Or.inr (Or.inr rfl)))]
    exact projPart_wfA hc

theorem canonical_projCount {n : Node} (h : canonical n = true) :
    projCount n = 1 := by
  rcases canonical_shape h with h1 | ⟨c, pr, hn, hc⟩
  . exact projPart_projCount h1
  . subst hn
    rw [projCount_mk, projCountL_cons, projCountL_nil, projPart_projCount hc]
    simp

theorem canonical_topProject {n : Node} (h : canonical n = true) :
    topProject n = true := by
  rcases canonical_shape h with h1 | ⟨c, pr, hn, hc⟩
  . obtain ⟨c, pr, hn, _⟩ := projPart_shape h1
    subst hn
    exact topProject_project [c] pr
  . subst hn
    rw [topProject_order]
    obtain ⟨c2, pr2, hc2, _⟩ := projPart_shape hc
    subst hc2
    simp

/-! ## C4 — grammar preservation across the passes -/

def C4cexIn : Node :=
  .mk "Project" [.mk "Scan" [] { relation := "t", palias := "t" }]
    { attrs := ["t.a"] }

def C4cexOut : Node :=
  .mk "Project"
    [.mk "Project" [.mk "Scan" [] { relation := "t", palias := "t" }]
      { attrs := ["t.a"] }]
    { attrs := ["t.a"] }

/-- C4 (counterexample): the claim says every pass keeps the tree at
exactly one `Project` node; `projection_pushdown` does not.  On the
canonical tree `Project[t.a](Scan t)` (one `Project`), the pass wraps the
`Scan` in a second, synthetic `Project[t.a]`, so the output has two
`Project` nodes. -/
theorem C4_counterexample :
    canonical C4cexIn = true ∧ projCount C4cexIn = 1 ∧
      projection_pushdown C4cexIn = .ok C4cexOut ∧ projCount C4cexOut = 2 :=
  ⟨rfl, rfl, rfl, rfl⟩

/-- C4 (corrected): on any tree satisfying the canonical arity invariant,
carrying exactly one `Project`, placed at the root or directly below a
root `Order`, each of the six passes other than `projection_pushdown`
succeeds and preserves all three invariants (fixed arities, exactly one
`Project`, root placement); `projection_pushdown` succeeds and preserves
the arities and the root placement but not the single-`Project` count
(it inserts synthetic `Project` nodes above `Scan`s, see the
counterexample). -/
theorem C4_grammar_preservation :
    ∀ n, wfA n = true → projCount n = 1 → topProject n = true →
      (∀ g ∈ [breakup_conjuncts, selection_pushdown, joinize, reorder_joins,
          having_to_where, dedup_selections],
        ∃ m, g n = .ok m ∧ wfA m = true ∧ projCount m = 1 ∧
          topProject m = true) ∧
      (∃ m, projection_pushdown n = .ok m ∧ wfA m = true ∧
        topProject m = true) := by
  intro n hw hpc htp
  constructor
  . intro g hg
    simp only [List.mem_cons, List.not_mem_nil, or_false] at hg
    rcases hg with h | h | h | h | h | h
    . subst h
      obtain ⟨m, e1, e2, e3, _, e5⟩ := buc_master (nsize n) n le_rfl hw
      exact ⟨m, e1, e2, by rw [e3, hpc], e5 htp⟩
    . subst h
      obtain ⟨m, e1, e2, e3, _, _, e6⟩ := sp_master (nsize n) n le_rfl hw
      exact ⟨m, e1, e2, by rw [e3, hpc], e6 htp⟩
    . subst h
      obtain ⟨m, e1, e2, e3, _, e5⟩ := jz_master (nsize n) n le_rfl hw
      exact ⟨m, e1, e2, by rw [e3, hpc], e5 htp⟩
    . subst h
      obtain ⟨m, e1, e2, e3, _, e5⟩ := rj_master (nsize n) n le_rfl hw
      exact ⟨m, e1, e2, by rw [e3, hpc], e5 htp⟩
    . subst h
      obtain ⟨m, e1, e2, e3, _, e5⟩ := htw_master (nsize n) n le_rfl hw
      exact ⟨m, e1, e2, by rw [e3, hpc], e5 htp⟩
    . subst h
      obtain ⟨m, s', e1, e2, e3, _, e5⟩ := dd_master (nsize n) n [] le_rfl hw
      refine ⟨m, ?_, e2, by rw [e3, hpc], e5 htp⟩
      simp only [dedup_selections, e1]
  . obtain ⟨m, e1, e2, _, e4⟩ := pj_master (nsize n) n
      (if n.op = "Project" then n.props.attrs
       else if n.op = "Order" then n.props.order_by else []) le_rfl hw
    exact ⟨m, e1, e2, e4 htp⟩

/-- C4 (witness): the corrected theorem applied to the concrete canonical
tree `Project[t.a](Scan t)`. -/
theorem C4_witness :
    wfA C4cexIn = true ∧ projCount C4cexIn = 1 ∧ topProject C4cexIn = true ∧
      ((∀ g ∈ [breakup_conjuncts, selection_pushdown, joinize, reorder_joins,
          having_to_where, dedup_selections],
        ∃ m, g C4cexIn = .ok m ∧ wfA m = true ∧ projCount m = 1 ∧
          topProject m = true) ∧
       (∃ m, projection_pushdown C4cexIn = .ok m ∧ wfA m = true ∧
         topProject m = true)) :=
  ⟨rfl, rfl, rfl, C4_grammar_preservation C4cexIn rfl rfl rfl⟩

/-! ## C9 — totality of the pipeline on canonical trees -/

/-- C9 (confirmed): on every tree satisfying the canonical grammar of §3,
`optimize_pipeline` runs all seven passes to completion and returns a
result (no child access, unpacking, or recursion bound ever fails). -/
theorem C9_pipeline_total_on_canonical :
    ∀ t, canonical t = true →
      ∃ u trace, optimize_pipeline t = .ok (u, trace) := by
  intro t h
  have hw0 := canonical_wfA h
  obtain ⟨r1, h1, hw1, _, _, _⟩ := buc_master (nsize t) t le_rfl hw0
  obtain ⟨r2, h2, hw2, _, _, _, _⟩ := sp_master (nsize r1) r1 le_rfl hw1
  obtain ⟨r3, h3, hw3, _, _, _⟩ := jz_master (nsize r2) r2 le_rfl hw2
  obtain ⟨r4, h4, hw4, _, _⟩ := pj_master (nsize r3) r3
    (if r3.op = "Project" then r3.props.attrs
     else if r3.op = "Order" then r3.props.order_by else []) le_rfl hw3
  obtain ⟨r5, h5, hw5, _, _, _⟩ := rj_master (nsize r4) r4 le_rfl hw4
  obtain ⟨r6, h6, hw6, _, _, _⟩ := htw_master (nsize r5) r5 le_rfl hw5
  obtain ⟨r7, s7, h7, hw7, _, _, _⟩ := dd_master (nsize r6) r6 [] le_rfl hw6
  refine ⟨r7,
    [("Step 0 — Canonical", t), ("Step 1 — BreakUpConjuncts", r1),
     ("Step 2 — SelectionPushdown", r2), ("Step 3 — JoinizeSelections", r3),
     ("Step 4 — ProjectionPushdown", r4), ("Step 5 — ReorderJoins", r5),
     ("Step 6 — HavingToWhere", r6), ("Step 7 — DedupSelections", r7),
     ("Step 8 — Final", r7)], ?_⟩
  simp only [optimize_pipeline, breakup_conjuncts, selection_pushdown, joinize,
    projection_pushdown, reorder_joins, having_to_where, dedup_selections,
    h1, h2, h3, h4, h5, h6, h7]

def C9wit : Node :=
  .mk "Order"
    [.mk "Project"
      [.mk "Select" [.mk "Scan" [] { relation := "emp", palias := "e" }]
        { pred := "e.x = 1", pred_attrs := ["e.x"] }]
      { attrs := ["e.x"] }]
    { order_by := ["e.x"] }

/-- C9 (witness): the totality theorem applied to a concrete canonical
tree with `Order`, `Project`, a `Select` and a `Scan`. -/
theorem C9_witness :
    canonical C9wit = true ∧
      ∃ u trace, optimize_pipeline C9wit = .ok (u, trace) :=
  ⟨rfl, C9_pipeline_total_on_canonical C9wit rfl⟩
